import Mathlib

/-!
# Verification of the tree-packing tool (`scripts/pack_from_tree.py`)

A shallow embedding of the packing tool's data model and operations, with
theorems checking the natural-language specification against it.

Modelling conventions:
* Filesystem paths are lists of path segments (`List String`).
* File modification times are modelled as `Int` (only their ordering matters
  to the program; Python exposes them as seconds-since-epoch numbers).
* The destination site is an association list from path to file metadata
  (mtime, size); `count_files` is its length (site paths are kept distinct).
* Python `list.sort(key=..., reverse=True)` is a stable descending sort; it is
  embedded as a stable insertion sort, and a uniqueness theorem shows any
  stable descending-sorted permutation is equal to it.
* Python `int(s)` (used by `parse_int`) accepts optional surrounding ASCII
  whitespace, an optional sign, and ASCII digits optionally separated by
  single underscores; this grammar is embedded exactly (Unicode digits and
  Unicode whitespace are outside the model).
-/

namespace Pack

/-- Stat metadata of a regular file: modification time and size.  These are
the two fields `copy_to_site` compares. -/
structure FileMeta where
  mtime : Int
  size : Nat
  deriving DecidableEq, Repr

/-- The destination site as an association list from (relative) path to file
metadata.  Keys are kept distinct by the update operation. -/
abbrev Site := List (List String × FileMeta)

/-- Look up the metadata stored at path `p`. -/
def lookupPath (s : Site) (p : List String) : Option FileMeta :=
  (s.find? (fun e => e.1 = p)).map (·.2)

/-- Create or overwrite the file at path `p` with metadata `m`. -/
def setPath (s : Site) (p : List String) (m : FileMeta) : Site :=
  if s.any (fun e => e.1 = p) then
    s.map (fun e => if e.1 = p then (p, m) else e)
  else
    s ++ [(p, m)]

/-- `count_files(root)`: the number of regular files under the site root
(`sum(1 for p in root.rglob("*") if p.is_file())`). -/
def count_files (s : Site) : Nat := s.length

/-- Python's `l[:k]` for an arbitrary integer `k`: a nonnegative stop index is
clamped to the length; a negative stop index counts from the end. -/
def pyTake (k : Int) (l : List α) : List α :=
  if k < 0 then l.take ((l.length : Int) + k).toNat else l.take k.toNat

/-- Characters Python's `int()` ignores at either end of its argument
(ASCII whitespace; Unicode whitespace is outside the model). -/
def isPySpace (c : Char) : Bool :=
  c = ' ' || c = '\t' || c = '\n' || c = '\r' || c = '\x0b' || c = '\x0c'

/-- Strip `isPySpace` characters from both ends of a character list. -/
def stripSpaces (l : List Char) : List Char :=
  ((l.dropWhile isPySpace).reverse.dropWhile isPySpace).reverse

/-- Accumulating scan of the tail of a Python integer literal: digits
optionally separated by single underscores (`digit (["_"] digit)*`). -/
def digitsAux (acc : Nat) : List Char → Option Nat
  | [] => some acc
  | c :: cs =>
    if c.isDigit then digitsAux (acc * 10 + (c.toNat - 48)) cs
    else if c = '_' then
      match cs with
      | d :: cs' =>
        if d.isDigit then digitsAux (acc * 10 + (d.toNat - 48)) cs' else none
      | [] => none
    else none

/-- Parse a nonempty underscore-separated digit sequence. -/
def parseDigits : List Char → Option Nat
  | [] => none
  | c :: cs => if c.isDigit then digitsAux (c.toNat - 48) cs else none

/-- `parse_int(s)`: `int(s)` wrapped to return `none` on failure.  Python's
`int` strips surrounding whitespace, then accepts an optional sign followed by
digits optionally separated by single underscores. -/
def parse_int (s : String) : Option Int :=
  match stripSpaces s.data with
  | '+' :: rest => (parseDigits rest).map (fun n => (n : Int))
  | '-' :: rest => (parseDigits rest).map (fun n => -(n : Int))
  | rest => (parseDigits rest).map (fun n => (n : Int))

/-! ## Stable insertion sort

`list.sort(key=..., reverse=...)` in Python is a stable sort.  `sortB before`
places `a` before the first already-placed element `x` with `before a x`;
instantiating `before` with a non-strict comparison in the requested
direction yields exactly a stable sort in that direction. -/

/-- Insert `a` in front of the first element `x` of `l` with `before a x`. -/
def insertB (before : α → α → Bool) (a : α) : List α → List α
  | [] => [a]
  | x :: xs => if before a x then a :: x :: xs else x :: insertB before a xs

/-- Stable sort by the placement predicate `before`. -/
def sortB (before : α → α → Bool) (l : List α) : List α :=
  l.foldr (insertB before) []

theorem insertB_perm (before : α → α → Bool) (a : α) (l : List α) :
    (insertB before a l).Perm (a :: l) := by
  induction l with
  | nil => simp [insertB]
  | cons x xs ih =>
    by_cases h : before a x
    · simp [insertB, h]
    · simp only [insertB, h, if_neg, Bool.false_eq_true, if_false]
      exact ((ih.cons x).trans (List.Perm.swap a x xs))

theorem sortB_perm (before : α → α → Bool) (l : List α) :
    (sortB before l).Perm l := by
  induction l with
  | nil => simp [sortB]
  | cons a l ih =>
    exact ((insertB_perm before a (sortB before l)).trans (ih.cons a))

theorem insertB_pairwise (before : α → α → Bool)
    (htot : ∀ a b, before a b = true ∨ before b a = true)
    (htrans : ∀ a b c, before a b = true → before b c = true → before a c = true)
    (a : α) (l : List α)
    (hl : l.Pairwise (fun x y => before x y = true)) :
    (insertB before a l).Pairwise (fun x y => before x y = true) := by
  induction l with
  | nil => simp [insertB]
  | cons x xs ih =>
    by_cases h : before a x
    · simp only [insertB, h, if_true]
      refine List.Pairwise.cons ?_ hl
      intro y hy
      rcases List.mem_cons.mp hy with rfl | hy
      · exact h
      · exact htrans a x y h (List.rel_of_pairwise_cons hl hy)
    · simp only [insertB, h, Bool.false_eq_true, if_false]
      have hxa : before x a = true := by
        rcases htot a x with h' | h'
        · exact absurd h' h
        · exact h'
      refine List.Pairwise.cons ?_ (ih (List.Pairwise.of_cons hl))
      intro y hy
      have hy' := (insertB_perm before a xs).mem_iff.mp hy
      rcases List.mem_cons.mp hy' with rfl | hy''
      · exact hxa
      · exact List.rel_of_pairwise_cons hl hy''

theorem sortB_pairwise (before : α → α → Bool)
    (htot : ∀ a b, before a b = true ∨ before b a = true)
    (htrans : ∀ a b c, before a b = true → before b c = true → before a c = true)
    (l : List α) :
    (sortB before l).Pairwise (fun x y => before x y = true) := by
  induction l with
  | nil => simp [sortB]
  | cons a l ih => exact insertB_pairwise before htot htrans a (sortB before l) ih

theorem insertB_filter_pos (before : α → α → Bool) (p : α → Bool) (a : α)
    (ha : p a = true) (hskip : ∀ x, ¬ before a x = true → p x = false)
    (l : List α) :
    (insertB before a l).filter p = a :: l.filter p := by
  induction l with
  | nil => simp [insertB, ha]
  | cons x xs ih =>
    by_cases h : before a x
    · simp [insertB, h, ha]
    · have hx : p x = false := hskip x h
      simp [insertB, h, hx, ih]

theorem insertB_filter_neg (before : α → α → Bool) (p : α → Bool) (a : α)
    (ha : p a = false) (l : List α) :
    (insertB before a l).filter p = l.filter p := by
  induction l with
  | nil => simp [insertB, ha]
  | cons x xs ih =>
    by_cases h : before a x
    · simp [insertB, h, ha]
    · by_cases hx : p x
      · simp [insertB, h, hx, ih]
      · simp [insertB, h, hx, ih]

/-- Filtering by a decidable predicate does not depend on the choice of
decidability instance. -/
theorem filter_decide_congr {α : Type} {p : α → Prop}
    {i1 i2 : (a : α) → Decidable (p a)} (l : List α) :
    (l.filter fun a => @decide (p a) (i1 a)) =
      (l.filter fun a => @decide (p a) (i2 a)) := by
  have h : i1 = i2 := Subsingleton.elim i1 i2
  subst h
  rfl

/-! ### Descending sort by a key, and uniqueness of stable sorts -/

/-- The placement predicate of a stable descending sort by `key`:
`a` goes in front of the first element whose key is `≤ key a`, i.e. after
every strictly larger key and before every equal or smaller key (ties keep
input order, as Python's stable `sort(reverse=True)` does). -/
def descBefore [LinearOrder K] (key : α → K) (a x : α) : Bool :=
  decide (key x ≤ key a)

theorem descBefore_total [LinearOrder K] (key : α → K) (a b : α) :
    descBefore key a b = true ∨ descBefore key b a = true := by
  simp only [descBefore, decide_eq_true_eq]
  exact le_total (key b) (key a)

theorem descBefore_trans [LinearOrder K] (key : α → K) (a b c : α)
    (h1 : descBefore key a b = true) (h2 : descBefore key b c = true) :
    descBefore key a c = true := by
  simp only [descBefore, decide_eq_true_eq] at *
  exact le_trans h2 h1

/-- Sortedness of the stable descending sort. -/
theorem sortB_desc_sorted [LinearOrder K] (key : α → K) (l : List α) :
    (sortB (descBefore key) l).Pairwise (fun x y => key y ≤ key x) := by
  have h := sortB_pairwise (descBefore key) (descBefore_total key)
    (descBefore_trans key) l
  refine h.imp ?_
  intro a b hab
  simpa [descBefore] using hab

/-- Stability of the stable descending sort: within each key class, the
sorted output lists elements in their original order. -/
theorem sortB_desc_filter [LinearOrder K] [DecidableEq K] (key : α → K)
    (k : K) (l : List α) :
    (sortB (descBefore key) l).filter (fun x => key x = k) =
      l.filter (fun x => key x = k) := by
  induction l with
  | nil => simp [sortB]
  | cons a l ih =>
    show (insertB (descBefore key) a (sortB (descBefore key) l)).filter _ = _
    by_cases ha : key a = k
    · rw [insertB_filter_pos (descBefore key) _ a (by simp [ha]) ?_ ,
        ih]
      · simp [ha]
      · intro x hx
        simp only [descBefore, decide_eq_true_eq] at hx
        simp only [decide_eq_false_iff_not]
        intro hxk
        exact hx (le_of_eq (hxk.trans ha.symm))
    · rw [insertB_filter_neg (descBefore key) _ a (by simp [ha]), ih,
        List.filter_cons_of_neg (by simp [ha])]

/-- Any two lists that are sorted descending by `key` and agree on every key
class (as ordered sublists) are equal: a stable descending sort is uniquely
determined.  This is the determinism/totality content of the global ordering. -/
theorem stable_desc_sort_unique [LinearOrder K] [DecidableEq K] (key : α → K) :
    ∀ (l₁ l₂ : List α),
      l₁.Pairwise (fun x y => key y ≤ key x) →
      l₂.Pairwise (fun x y => key y ≤ key x) →
      (∀ k, l₁.filter (fun x => key x = k) = l₂.filter (fun x => key x = k)) →
      l₁ = l₂
  | [], [], _, _, _ => rfl
  | [], b :: t₂, _, _, hf => by
    have := hf (key b)
    simp at this
  | a :: t₁, [], _, _, hf => by
    have := hf (key a)
    simp at this
  | a :: t₁, b :: t₂, h₁, h₂, hf => by
    have hab : key a = key b := by
      have ha2 : a ∈ b :: t₂ := by
        have hfk := hf (key a)
        have hmem : a ∈ (a :: t₁).filter (fun x => decide (key x = key a)) := by
          simp
        rw [hfk] at hmem
        exact List.mem_of_mem_filter hmem
      have hb1 : b ∈ a :: t₁ := by
        have hfk := hf (key b)
        have hmem : b ∈ (b :: t₂).filter (fun x => decide (key x = key b)) := by
          simp
        rw [← hfk] at hmem
        exact List.mem_of_mem_filter hmem
      have hle1 : key a ≤ key b := by
        rcases List.mem_cons.mp ha2 with rfl | hmem
        · rfl
        · exact List.rel_of_pairwise_cons h₂ hmem
      have hle2 : key b ≤ key a := by
        rcases List.mem_cons.mp hb1 with rfl | hmem
        · rfl
        · exact List.rel_of_pairwise_cons h₁ hmem
      exact le_antisymm hle1 hle2
    have hfa := hf (key a)
    rw [List.filter_cons_of_pos (by simp), List.filter_cons_of_pos (by simp [hab])]
      at hfa
    have hheads : a = b := by
      have := congrArg List.head? hfa
      simpa using this
    subst hheads
    have htails : t₁ = t₂ := by
      refine stable_desc_sort_unique key t₁ t₂ (List.Pairwise.of_cons h₁)
        (List.Pairwise.of_cons h₂) ?_
      intro k
      by_cases hk : key a = k
      · subst hk
        exact List.tail_eq_of_cons_eq hfa
      · have hfk := hf k
        rwa [List.filter_cons_of_neg (by simp [hk]),
          List.filter_cons_of_neg (by simp [hk])] at hfk
    rw [htails]

/-! ## JSON values and the metadata extractor -/

/-- A parsed JSON value (numbers as integers; only ordering-free uses occur). -/
inductive JVal where
  | null
  | bool (b : Bool)
  | num (n : Int)
  | str (s : String)
  | arr (elems : List JVal)
  | obj (fields : List (String × JVal))
  deriving Repr

/-- `dict.get(k)` on a parsed JSON object. -/
def jget (fields : List (String × JVal)) (k : String) : Option JVal :=
  (fields.find? (fun kv => kv.1 = k)).map (·.2)

/-- Python `str.strip()` (ASCII whitespace). -/
def pyStrip (s : String) : String := ⟨stripSpaces s.data⟩

/-- The list-shaped case of `extract_prompt`: scan elements for a dict whose
`"value"` field is a string with nonempty strip; no recursion. -/
def arrScan : List JVal → String
  | [] => ""
  | JVal.obj fields :: rest =>
    match jget fields "value" with
    | some (JVal.str s) => if pyStrip s = "" then arrScan rest else pyStrip s
    | _ => arrScan rest
  | _ :: rest => arrScan rest

/-- Direct prompt-like fields, checked in order. -/
def promptKeys : List String :=
  ["prompt", "instruction", "input", "question", "caption", "text"]

/-- Container fields recursed into, checked in order. -/
def containerKeys : List String :=
  ["data", "meta", "inputs", "message", "messages", "payload"]

/-- Scan `keys` for one whose value is a string with nonempty strip. -/
def objDirect (fields : List (String × JVal)) : List String → Option String
  | [] => none
  | k :: ks =>
    match jget fields k with
    | some (JVal.str s) => if pyStrip s = "" then objDirect fields ks else some (pyStrip s)
    | _ => objDirect fields ks

/-- `isinstance(v, (list, dict))`. -/
def isContainer : JVal → Bool
  | JVal.arr _ => true
  | JVal.obj _ => true
  | _ => false

/-- Scan `keys` for a container value on which `rec` yields a nonempty
string. -/
def containerScan (rec : JVal → String) (fields : List (String × JVal)) :
    List String → String
  | [] => ""
  | k :: ks =>
    match jget fields k with
    | some v =>
      if isContainer v then
        let p := rec v
        if p = "" then containerScan rec fields ks else p
      else containerScan rec fields ks
    | none => containerScan rec fields ks

mutual

/-- A size measure on JSON values, used as recursion fuel. -/
def jfuel : JVal → Nat
  | JVal.arr l => jfuelList l + 1
  | JVal.obj l => jfuelFields l + 1
  | _ => 1

/-- Size measure on JSON arrays. -/
def jfuelList : List JVal → Nat
  | [] => 0
  | v :: vs => jfuel v + jfuelList vs

/-- Size measure on JSON object field lists. -/
def jfuelFields : List (String × JVal) → Nat
  | [] => 0
  | kv :: vs => jfuel kv.2 + jfuelFields vs

end

/-- `extract_prompt`, with recursion depth made explicit as fuel (the Python
recursion always terminates on finite JSON trees; `extract_prompt` below
supplies `jfuel` of the value as fuel, which bounds the nesting depth). -/
def extract_prompt_fuel : Nat → JVal → String
  | _, JVal.arr l => arrScan l
  | fuel, JVal.obj fields =>
    (match objDirect fields promptKeys with
     | some s => s
     | none =>
       match fuel with
       | 0 => ""
       | f + 1 => containerScan (extract_prompt_fuel f) fields containerKeys)
  | _, _ => ""

/-- `extract_prompt(obj)`: best-effort prompt extraction. -/
def extract_prompt (v : JVal) : String := extract_prompt_fuel (jfuel v) v

/-! ## Path utilities over directory listings -/

/-- `Path.stem` on a file name: the name with its final extension removed
(a leading dot alone does not start an extension, as in `pathlib`). -/
def stemData (l : List Char) : List Char :=
  match l.reverse.dropWhile (fun c => c ≠ '.') with
  | [] => l
  | _ :: rest => if rest = [] then l else rest.reverse

/-- `Path(name).stem`. -/
def stem (n : String) : String := ⟨stemData n.data⟩

/-- `jpg.with_suffix(".json")` applied to a file name. -/
def json_sibling (n : String) : String := stem n ++ ".json"

/-- Whether `pathlib.Path.glob("*.jpg")` matches a file name: `*` matches
any (possibly empty) prefix, dot-leading names included, so the pattern
matches exactly the names ending in `.jpg`. -/
def matchesJpg (n : String) : Bool :=
  List.isSuffixOf ".jpg".data n.data

/-- Stat data of a source file. -/
structure FsFile where
  name : String
  mtime : Int
  size : Nat
  deriving DecidableEq, Repr

/-- Lexicographic code-point comparison of names, as Python compares
strings (`sorted()` on same-directory paths compares their final names). -/
def charListLe : List Char → List Char → Bool
  | [], _ => true
  | _ :: _, [] => false
  | a :: as, b :: bs =>
    if a < b then true else if b < a then false else charListLe as bs

/-- `first_jpg(folder)`: the first `*.jpg` match in sorted name order. -/
def first_jpg (files : List FsFile) : Option FsFile :=
  (sortB (fun a b => charListLe a.name.data b.name.data)
    (files.filter (fun f => matchesJpg f.name))).head?

/-- Combined ascending/descending stable sort by an integer key, matching
Python's `list.sort(key=..., reverse=...)`. -/
def sortDir (rev : Bool) (key : α → Int) (l : List α) : List α :=
  if rev then sortB (descBefore key) l
  else sortB (descBefore (fun d => OrderDual.toDual (key d))) l

/-- `iter_dirs_numeric_sorted(root, reverse)`: numeric-named children sorted
by integer value, then non-numeric-named children sorted by mtime, each group
in the requested direction.  `name`/`mtime` project the directory listing. -/
def iter_dirs_numeric_sorted (name : α → String) (mtime : α → Int)
    (rev : Bool) (dirs : List α) : List α :=
  let numeric := dirs.filter (fun d => (parse_int (name d)).isSome)
  let nonnum := dirs.filter (fun d => !(parse_int (name d)).isSome)
  sortDir rev (fun d => (parse_int (name d)).getD 0) numeric ++
    sortDir rev mtime nonnum

/-- `child_dirs_numeric_sorted` is an alias of `iter_dirs_numeric_sorted`. -/
def child_dirs_numeric_sorted (name : α → String) (mtime : α → Int)
    (rev : Bool) (dirs : List α) : List α :=
  iter_dirs_numeric_sorted name mtime rev dirs

/-! ## Candidates -/

/-- A discovery-time candidate record (the dict built by `make_candidate`). -/
structure Cand where
  src : FsFile
  dst_dir : List String
  benchmark : String
  iter_dir : String
  sub_dir : String
  model : String
  prompt : String
  mtime : Int
  iter_num : Int
  sub_num : Int
  id : String
  deriving DecidableEq, Repr

/-- `make_candidate`: build the candidate record, with `-1` rank sentinels for
non-numeric iteration/sub-unit labels. -/
def make_candidate (jpg : FsFile) (dst_dir : List String) (benchmark : String)
    (iter_name sub_name : String) (model prompt : String) : Cand :=
  { src := jpg
    dst_dir := dst_dir
    benchmark := benchmark
    iter_dir := iter_name
    sub_dir := sub_name
    model := model
    prompt := prompt
    mtime := jpg.mtime
    iter_num := (parse_int iter_name).getD (-1)
    sub_num := (parse_int sub_name).getD (-1)
    id := benchmark ++ "-" ++ iter_name ++ "-" ++ sub_name ++ "-" ++ stem jpg.name }

/-! ## Source trees and the two crawls -/

/-- The content of a `samples` leaf directory: its regular files, plus the
parsed content of each JSON file in it (an unparseable or unreadable JSON
file is recorded as `JVal.obj []`, which is what `read_json` returns). -/
structure SamplesDir where
  files : List FsFile
  jsons : List (String × JVal)

/-- A geneval sub-unit directory (`count_dir` under `generation`). -/
structure SubDirG where
  name : String
  mtime : Int
  samples : Option SamplesDir

/-- A geneval iteration directory; `generation` is `none` when the expected
subdirectory is absent. -/
structure IterDirG where
  name : String
  mtime : Int
  generation : Option (List SubDirG)

/-- A dpg sub-unit directory (`name_dir` under `generation`), which holds its
artifact files directly. -/
structure SubDirD where
  name : String
  mtime : Int
  files : List FsFile
  jsons : List (String × JVal)

/-- A dpg iteration directory. -/
structure IterDirD where
  name : String
  mtime : Int
  generation : Option (List SubDirD)

/-- Optionally keep only the first `latest_iters` iteration directories. -/
def applyLatest (latest : Option Int) (iters : List α) : List α :=
  match latest with
  | some n => if 0 < n then pyTake n iters else iters
  | none => iters

/-- The JSON metadata co-located with `jpg` (`read_json(js) if js.exists()
else {}`). -/
def metaFor (jsons : List (String × JVal)) (jpgName : String) : JVal :=
  ((jsons.find? (fun kv => kv.1 = json_sibling jpgName)).map (·.2)).getD (JVal.obj [])

/-- The body of the inner geneval loop: the candidates (zero or one) that a
single `count_dir` under a given iteration contributes. -/
def geneval_leaf_cands (images_out : List String) (model : String)
    (it : IterDirG) (cd : SubDirG) : List Cand :=
  match cd.samples with
  | none => []
  | some sd =>
    match first_jpg sd.files with
    | none => []
    | some jpg =>
      let prompt := extract_prompt (metaFor sd.jsons jpg.name)
      [make_candidate jpg (images_out ++ ["geneval", it.name, cd.name])
        "geneval" it.name cd.name model prompt]

/-- The body of the outer geneval loop: the candidates one iteration
directory contributes. -/
def geneval_iter_cands (images_out : List String) (model : String)
    (it : IterDirG) : List Cand :=
  match it.generation with
  | none => []
  | some subs =>
    (child_dirs_numeric_sorted SubDirG.name SubDirG.mtime true subs).flatMap
      (geneval_leaf_cands images_out model it)

/-- `crawl_geneval_candidates`. -/
def crawl_geneval_candidates (root : List IterDirG) (images_out : List String)
    (model : String) (latest_iters : Option Int) : List Cand :=
  (applyLatest latest_iters
      (iter_dirs_numeric_sorted IterDirG.name IterDirG.mtime true root)).flatMap
    (geneval_iter_cands images_out model)

/-- The body of the inner dpg loop: the candidates a single `name_dir`
contributes. -/
def dpg_leaf_cands (images_out : List String) (model : String)
    (it : IterDirD) (nd : SubDirD) : List Cand :=
  match first_jpg nd.files with
  | none => []
  | some jpg =>
    let prompt := extract_prompt (metaFor nd.jsons jpg.name)
    [make_candidate jpg (images_out ++ ["dpg", it.name, nd.name])
      "dpg" it.name nd.name model prompt]

/-- The body of the outer dpg loop. -/
def dpg_iter_cands (images_out : List String) (model : String)
    (it : IterDirD) : List Cand :=
  match it.generation with
  | none => []
  | some subs =>
    (child_dirs_numeric_sorted SubDirD.name SubDirD.mtime true subs).flatMap
      (dpg_leaf_cands images_out model it)

/-- `crawl_dpg_candidates`. -/
def crawl_dpg_candidates (root : List IterDirD) (images_out : List String)
    (model : String) (latest_iters : Option Int) : List Cand :=
  (applyLatest latest_iters
      (iter_dirs_numeric_sorted IterDirD.name IterDirD.mtime true root)).flatMap
    (dpg_iter_cands images_out model)

/-! ## Selection engine -/

/-- The composite sort key `(iter_num, sub_num, mtime, benchmark)`, compared
lexicographically as Python compares tuples. -/
abbrev SortKey := Lex (Int × Lex (Int × Lex (Int × String)))

/-- The sort key of a candidate. -/
def candKey (c : Cand) : SortKey :=
  toLex (c.iter_num, toLex (c.sub_num, toLex (c.mtime, c.benchmark)))

/-- `candidates.sort(key=..., reverse=True)`: the stable descending sort of
the merged candidate list by `candKey`. -/
def sortCandidates (l : List Cand) : List Cand :=
  sortB (descBefore candKey) l

/-- `effective_limit`: headroom clamped at zero, then capped by `max_items`. -/
def effective_limit (maxItems fileBudget : Int) (existing : Nat) : Int :=
  min maxItems (max 0 (fileBudget - (existing : Int)))

/-! ## Materializer -/

/-- The destination path of a candidate (`dst_dir / src.name`). -/
def dstPath (c : Cand) : List String := c.dst_dir ++ [c.src.name]

/-- `copy_to_site`: copy `src` to its destination iff the destination is
missing, strictly older, or of different size; `shutil.copy2` transfers the
source's mtime and size.  Returns the updated site and whether a copy was
performed. -/
def copy_to_site (site : Site) (c : Cand) : Site × Bool :=
  match lookupPath site (dstPath c) with
  | none => (setPath site (dstPath c) ⟨c.src.mtime, c.src.size⟩, true)
  | some m =>
    if m.mtime < c.src.mtime ∨ c.src.size ≠ m.size then
      (setPath site (dstPath c) ⟨c.src.mtime, c.src.size⟩, true)
    else (site, false)

/-- The copy loop over the selected candidates, counting performed copies. -/
def copyPhase (site : Site) : List Cand → Site × Nat
  | [] => (site, 0)
  | c :: cs =>
    let r := copy_to_site site c
    let rest := copyPhase r.1 cs
    (rest.1, (if r.2 then 1 else 0) + rest.2)

/-- A manifest item (the per-candidate record appended to `items`). -/
structure Item where
  id : String
  benchmark : String
  dataset : String
  split : String
  prompt : String
  image : List String
  reference : String
  answer : String
  prediction : String
  model : String
  tags : List String
  deriving DecidableEq, Repr

/-- Build the manifest item of a selected candidate.  The second tag key is
`count` for geneval and `name` for dpg. -/
def mkItem (c : Cand) : Item :=
  { id := c.id
    benchmark := c.benchmark
    dataset := c.benchmark
    split := ""
    prompt := c.prompt
    image := dstPath c
    reference := ""
    answer := ""
    prediction := ""
    model := c.model
    tags := ["iter:" ++ c.iter_dir,
      (if c.benchmark = "geneval" then "count" else "name") ++ ":" ++ c.sub_dir] }

/-- The manifest root document.  The creation timestamp is wall-clock output
and is deliberately left out of the model (every claim about manifests is
stated modulo the timestamp). -/
structure Manifest where
  benchmarks : List String
  items : List Item
  deriving DecidableEq, Repr

/-- `sorted(list(set(...)))` over the benchmarks of the items. -/
def manifestBenchmarks (items : List Item) : List String :=
  sortB (fun a b => charListLe a.data b.data) (items.map (·.benchmark)).dedup

/-- Assemble the manifest for a list of items. -/
def mkManifest (items : List Item) : Manifest :=
  { benchmarks := manifestBenchmarks items, items := items }

/-- Placeholder stat metadata for the written `manifest.json` (its mtime and
size are never read back by the tool). -/
def manifestMeta : FileMeta := ⟨0, 0⟩

/-- The path of the manifest at the site root. -/
def manifestPath : List String := ["manifest.json"]

/-! ## Main flow -/

/-- The observable outcome of a run of `main` past argument parsing and the
`index.html` check: the final site contents, the manifest written (`none` in
a dry run), the number of file copies performed, the selected candidates, and
the preview listing printed by a dry run. -/
structure PackResult where
  site : Site
  manifest : Option Manifest
  copies : Nat
  selected : List Cand
  preview : List Cand
  deriving Repr

/-- `main` after candidate collection: the zero-candidate early exit (which
writes an empty manifest even in a dry run), global sort, budget-aware
truncation, the dry-run exit, and otherwise copy plus manifest write. -/
def packMain (maxItems fileBudget : Int) (dryRun : Bool) (site : Site)
    (candidates : List Cand) : PackResult :=
  if candidates.isEmpty then
    { site := setPath site manifestPath manifestMeta
      manifest := some (mkManifest [])
      copies := 0
      selected := []
      preview := [] }
  else
    let sorted := sortCandidates candidates
    let existing := count_files site
    let limit := effective_limit maxItems fileBudget existing
    let selected := pyTake limit sorted
    if dryRun then
      { site := site
        manifest := none
        copies := 0
        selected := selected
        preview := selected.take 10 }
    else
      let copied := copyPhase site selected
      let items := selected.map mkItem
      { site := setPath copied.1 manifestPath manifestMeta
        manifest := some (mkManifest items)
        copies := copied.2
        selected := selected
        preview := [] }

/-! ## C9: `parse_int` versus "valid base-10 integer" -/

/-- Modelled from the spec's words for comparison with the code: "succeeds
only if the full string is a valid base-10 integer", read strictly as an
optional sign followed by one or more ASCII digits, nothing else. -/
def validBase10 (s : String) : Bool :=
  match s.data with
  | '+' :: ds => !ds.isEmpty && ds.all Char.isDigit
  | '-' :: ds => !ds.isEmpty && ds.all Char.isDigit
  | ds => !ds.isEmpty && ds.all Char.isDigit

/-- Strip surrounding whitespace and remove underscore digit separators: the
normalization Python's `int` effectively applies before reading digits. -/
def pyNormalize (s : String) : String :=
  ⟨(stripSpaces s.data).filter (fun c => c ≠ '_')⟩

theorem stripSpaces_of_nonspace (l : List Char)
    (h : ∀ c ∈ l, isPySpace c = false) : stripSpaces l = l := by
  have h1 : l.dropWhile isPySpace = l := by
    cases l with
    | nil => rfl
    | cons c cs => simp [List.dropWhile_cons, h c (by simp)]
  have h2 : l.reverse.dropWhile isPySpace = l.reverse := by
    cases hr : l.reverse with
    | nil => rfl
    | cons c cs =>
      have hc : c ∈ l := by
        have : c ∈ l.reverse := by rw [hr]; simp
        simpa using this
      simp [List.dropWhile_cons, h c hc]
  simp [stripSpaces, h1, h2]

theorem isDigit_ne_underscore (c : Char) (h : c.isDigit = true) : c ≠ '_' := by
  intro heq
  rw [heq] at h
  exact absurd h (by decide)

theorem isDigit_nonspace (c : Char) (h : c.isDigit = true) :
    isPySpace c = false := by
  cases hsp : isPySpace c with
  | false => rfl
  | true =>
    exfalso
    simp only [isPySpace, Bool.or_eq_true, decide_eq_true_eq] at hsp
    rcases hsp with ((((rfl | rfl) | rfl) | rfl) | rfl) | rfl <;>
      exact absurd h (by decide)

theorem digitsAux_isSome_of_digits (cs : List Char)
    (h : ∀ c ∈ cs, c.isDigit = true) (acc : Nat) :
    (digitsAux acc cs).isSome = true := by
  induction cs generalizing acc with
  | nil => simp [digitsAux]
  | cons c cs ih =>
    have hc := h c (by simp)
    rw [digitsAux.eq_def]
    simp only [hc, if_true]
    exact ih (fun d hd => h d (by simp [hd])) _

theorem digitsAux_filter_digits :
    ∀ (cs : List Char) (acc : Nat) (n : Nat), digitsAux acc cs = some n →
      ∀ c ∈ cs.filter (fun c => c ≠ '_'), c.isDigit = true
  | [], _, _, _ => by simp
  | c :: cs, acc, n, h => by
    rw [digitsAux.eq_def] at h
    by_cases hc : c.isDigit
    · simp only [hc, if_true] at h
      intro d hd
      rw [List.filter_cons_of_pos (by simp [isDigit_ne_underscore c hc])] at hd
      rcases List.mem_cons.mp hd with rfl | hd
      · exact hc
      · exact digitsAux_filter_digits cs _ n h d hd
    · simp only [hc, Bool.false_eq_true, if_false] at h
      by_cases hu : c = '_'
      · subst hu
        simp only [if_pos rfl] at h
        match cs, h with
        | d :: cs', h =>
          by_cases hdig : d.isDigit
          · simp only [hdig, if_true] at h
            intro e he
            rw [List.filter_cons_of_neg (by simp)] at he
            rw [List.filter_cons_of_pos
              (by simp [isDigit_ne_underscore d hdig])] at he
            rcases List.mem_cons.mp he with rfl | he
            · exact hdig
            · exact digitsAux_filter_digits cs' _ n h e he
          · simp [hdig] at h
      · simp [hu] at h

theorem parseDigits_isSome_of_digits (cs : List Char) (hne : cs ≠ [])
    (h : ∀ c ∈ cs, c.isDigit = true) : (parseDigits cs).isSome = true := by
  cases cs with
  | nil => exact absurd rfl hne
  | cons c cs =>
    simp only [parseDigits, h c (by simp), if_true]
    exact digitsAux_isSome_of_digits cs (fun d hd => h d (by simp [hd])) _

theorem parseDigits_filter_digits (cs : List Char) (n : Nat)
    (h : parseDigits cs = some n) :
    cs.filter (fun c => c ≠ '_') ≠ [] ∧
      ∀ c ∈ cs.filter (fun c => c ≠ '_'), c.isDigit = true := by
  cases cs with
  | nil => simp [parseDigits] at h
  | cons c cs =>
    by_cases hc : c.isDigit
    · simp only [parseDigits, hc, if_true] at h
      constructor
      · rw [List.filter_cons_of_pos (by simp [isDigit_ne_underscore c hc])]
        simp
      · intro d hd
        rw [List.filter_cons_of_pos (by simp [isDigit_ne_underscore c hc])] at hd
        rcases List.mem_cons.mp hd with rfl | hd
        · exact hc
        · exact digitsAux_filter_digits cs _ n h d hd
    · simp [parseDigits, hc] at h

/-- Characters of a valid base-10 integer string are not whitespace. -/
theorem validBase10_nonspace (s : String) (h : validBase10 s = true) :
    ∀ c ∈ s.data, isPySpace c = false := by
  intro c hc
  unfold validBase10 at h
  have hdig : ∀ d : Char, d.isDigit = true → isPySpace d = false :=
    isDigit_nonspace
  split at h
  next ds heq =>
    rw [heq] at hc
    simp only [Bool.and_eq_true, List.all_eq_true] at h
    rcases List.mem_cons.mp hc with rfl | hc
    · simp [isPySpace]
    · exact hdig c (h.2 c hc)
  next ds heq =>
    rw [heq] at hc
    simp only [Bool.and_eq_true, List.all_eq_true] at h
    rcases List.mem_cons.mp hc with rfl | hc
    · simp [isPySpace]
    · exact hdig c (h.2 c hc)
  next h1 h2 =>
    simp only [Bool.and_eq_true, List.all_eq_true] at h
    exact hdig c (h.2 c hc)

/-- Remove a leading sign character, if any. -/
def signSplit (l : List Char) : List Char :=
  match l with
  | '+' :: r => r
  | '-' :: r => r
  | r => r

theorem parse_int_isSome_eq (s : String) :
    (parse_int s).isSome = (parseDigits (signSplit (stripSpaces s.data))).isSome := by
  unfold parse_int
  split
  next rest heq =>
    rw [heq]; simp only [signSplit]; cases parseDigits rest <;> simp
  next rest heq =>
    rw [heq]; simp only [signSplit]; cases parseDigits rest <;> simp
  next h1 h2 =>
    unfold signSplit
    split
    next r heq => exact absurd heq (by intro hh; exact h1 r hh)
    next r heq => exact absurd heq (by intro hh; exact h2 r hh)
    next => cases parseDigits (stripSpaces s.data) <;> simp

theorem validBase10_eq (s : String) :
    validBase10 s =
      (!(signSplit s.data).isEmpty && (signSplit s.data).all Char.isDigit) := by
  unfold validBase10
  split
  next ds heq => rw [heq]; simp [signSplit]
  next ds heq => rw [heq]; simp [signSplit]
  next h1 h2 =>
    unfold signSplit
    split
    next r heq => exact absurd heq (by intro hh; exact h1 r hh)
    next r heq => exact absurd heq (by intro hh; exact h2 r hh)
    next => simp

theorem isDigit_ne_plus (c : Char) (h : c.isDigit = true) : c ≠ '+' := by
  intro heq
  rw [heq] at h
  exact absurd h (by decide)

theorem isDigit_ne_minus (c : Char) (h : c.isDigit = true) : c ≠ '-' := by
  intro heq
  rw [heq] at h
  exact absurd h (by decide)

theorem signSplit_no_sign (c : Char) (cs : List Char)
    (h1 : c ≠ '+') (h2 : c ≠ '-') : signSplit (c :: cs) = c :: cs := by
  unfold signSplit
  split
  next heq =>
    rw [List.cons_eq_cons] at heq
    exact absurd heq.1 h1
  next heq =>
    rw [List.cons_eq_cons] at heq
    exact absurd heq.1 h2
  next => rfl

theorem validBase10_mk_no_sign (c : Char) (cs : List Char)
    (h1 : c ≠ '+') (h2 : c ≠ '-') :
    validBase10 ⟨c :: cs⟩ = (!(c :: cs).isEmpty && (c :: cs).all Char.isDigit) := by
  rw [validBase10_eq]
  rw [show (String.mk (c :: cs)).data = c :: cs from rfl]
  rw [signSplit_no_sign c cs h1 h2]

/-- C9, counterexample: `parse_int " 10"` succeeds although the full input
string `" 10"` is not a valid base-10 integer (it carries leading
whitespace), because Python's `int` strips surrounding whitespace; so
`parse_int` does not return `none` "for every other string". -/
theorem parse_int_succeeds_on_padded_string :
    parse_int " 10" = some 10 ∧ validBase10 " 10" = false := by
  constructor <;> rfl

/-- C9 (amended): `parse_int(name)` returns an integer for every string that
is a valid base-10 integer (an optional sign followed by ASCII digits), and
it returns an integer only when the input, after stripping surrounding ASCII
whitespace and removing underscore digit separators, is a valid base-10
integer; in particular it never succeeds on a string with trailing garbage,
and returns `none` for every other string. -/
theorem parse_int_base10_characterization (s : String) :
    (validBase10 s = true → (parse_int s).isSome = true) ∧
      ((parse_int s).isSome = true → validBase10 (pyNormalize s) = true) := by
  constructor
  · intro h
    have hstrip : stripSpaces s.data = s.data :=
      stripSpaces_of_nonspace s.data (validBase10_nonspace s h)
    rw [validBase10_eq, Bool.and_eq_true, List.all_eq_true] at h
    rw [parse_int_isSome_eq, hstrip]
    refine parseDigits_isSome_of_digits _ ?_ h.2
    intro hemp
    rw [hemp] at h
    simp at h
  · intro h
    rw [parse_int_isSome_eq] at h
    rw [Option.isSome_iff_exists] at h
    obtain ⟨n, hn⟩ := h
    unfold pyNormalize
    cases hl : stripSpaces s.data with
    | nil =>
      rw [hl] at hn
      simp [signSplit, parseDigits] at hn
    | cons a rest =>
      rw [hl] at hn
      by_cases ha1 : a = '+'
      · subst ha1
        have hbody := parseDigits_filter_digits rest n (by simpa [signSplit] using hn)
        rw [List.filter_cons_of_pos (by simp)]
        rw [validBase10_eq]
        show (!(signSplit ('+' :: _)).isEmpty && _) = true
        simp only [signSplit, Bool.and_eq_true, List.all_eq_true]
        exact ⟨by simpa using hbody.1, hbody.2⟩
      · by_cases ha2 : a = '-'
        · subst ha2
          have hbody := parseDigits_filter_digits rest n (by simpa [signSplit] using hn)
          rw [List.filter_cons_of_pos (by simp)]
          rw [validBase10_eq]
          show (!(signSplit ('-' :: _)).isEmpty && _) = true
          simp only [signSplit, Bool.and_eq_true, List.all_eq_true]
          exact ⟨by simpa using hbody.1, hbody.2⟩
        · rw [signSplit_no_sign a rest ha1 ha2] at hn
          have hbody := parseDigits_filter_digits (a :: rest) n hn
          have hadig : a.isDigit = true := by
            cases hpd : parseDigits (a :: rest) with
            | none => rw [hpd] at hn; exact absurd hn (by simp)
            | some m =>
              unfold parseDigits at hpd
              by_cases hd : a.isDigit
              · exact hd
              · simp [hd] at hpd
          have hane : (a ≠ '_') := isDigit_ne_underscore a hadig
          rw [List.filter_cons_of_pos (by simpa using hane)]
          rw [validBase10_mk_no_sign a _ (isDigit_ne_plus a hadig)
            (isDigit_ne_minus a hadig)]
          simp only [Bool.and_eq_true, List.all_eq_true, List.isEmpty_cons,
            Bool.not_false, true_and]
          intro c hc
          rcases List.mem_cons.mp hc with rfl | hc
          · exact hadig
          · exact hbody.2 c (by
              rw [List.filter_cons_of_pos (by simpa using hane)]
              exact List.mem_cons_of_mem a hc)

/-- Witness for C9's theorem: both implications discharged at concrete
inputs. -/
theorem parse_int_base10_characterization_witness :
    (parse_int "42").isSome = true ∧ validBase10 (pyNormalize " 1_0 ") = true :=
  ⟨(parse_int_base10_characterization "42").1 (by decide),
    (parse_int_base10_characterization " 1_0 ").2 (by decide)⟩

/-! ## C6: rank sentinels for non-numeric labels -/

/-- A sample candidate used in concrete counterexamples and witnesses. -/
def sampleCand (bench iterName subName : String) (mt : Int) : Cand :=
  make_candidate ⟨"a.jpg", mt, 1⟩ ["images", bench, iterName, subName]
    bench iterName subName "m" ""

/-- C6, counterexample: the iteration label `"-2"` is numeric
(`parse_int` accepts it) with rank `-2`, which is *below* the `-1` sentinel
of the non-numeric label `"alpha"`; under the descending global sort the
non-numeric candidate precedes the numeric one, refuting "every candidate
with a numeric label precedes every candidate with a non-numeric label". -/
theorem nonnumeric_precedes_negative_numeric :
    parse_int "-2" = some (-2) ∧ parse_int "alpha" = none ∧
    (sampleCand "geneval" "-2" "1" 0).iter_num = -2 ∧
    (sampleCand "geneval" "alpha" "1" 0).iter_num = -1 ∧
    sortCandidates [sampleCand "geneval" "-2" "1" 0,
        sampleCand "geneval" "alpha" "1" 0] =
      [sampleCand "geneval" "alpha" "1" 0, sampleCand "geneval" "-2" "1" 0] := by
  refine ⟨rfl, rfl, rfl, rfl, ?_⟩
  rfl

/-- C6 (amended): every candidate built from a non-numeric iteration
(resp. sub-unit) label receives rank sentinel `-1` for that key, and under
the descending ordering every candidate whose label parses to a
*nonnegative* integer has a strictly larger rank than every candidate with a
non-numeric label at the same key level (labels parsing to negative integers
rank at or below the sentinel). -/
theorem make_candidate_sentinels :
    (∀ jpg d b i s mo pr, parse_int i = none →
        (make_candidate jpg d b i s mo pr).iter_num = -1) ∧
    (∀ jpg d b i s mo pr, parse_int s = none →
        (make_candidate jpg d b i s mo pr).sub_num = -1) ∧
    (∀ jpg₁ d₁ b₁ i₁ s₁ mo₁ pr₁ jpg₂ d₂ b₂ i₂ s₂ mo₂ pr₂ (n : Int),
        parse_int i₁ = none → parse_int i₂ = some n → 0 ≤ n →
        (make_candidate jpg₁ d₁ b₁ i₁ s₁ mo₁ pr₁).iter_num <
          (make_candidate jpg₂ d₂ b₂ i₂ s₂ mo₂ pr₂).iter_num) ∧
    (∀ jpg₁ d₁ b₁ i₁ s₁ mo₁ pr₁ jpg₂ d₂ b₂ i₂ s₂ mo₂ pr₂ (n : Int),
        parse_int s₁ = none → parse_int s₂ = some n → 0 ≤ n →
        (make_candidate jpg₁ d₁ b₁ i₁ s₁ mo₁ pr₁).sub_num <
          (make_candidate jpg₂ d₂ b₂ i₂ s₂ mo₂ pr₂).sub_num) := by
  refine ⟨?_, ?_, ?_, ?_⟩
  · intro jpg d b i s mo pr h
    simp [make_candidate, h]
  · intro jpg d b i s mo pr h
    simp [make_candidate, h]
  · intro jpg₁ d₁ b₁ i₁ s₁ mo₁ pr₁ jpg₂ d₂ b₂ i₂ s₂ mo₂ pr₂ n h1 h2 hn
    simp only [make_candidate, h1, h2, Option.getD_none, Option.getD_some]
    omega
  · intro jpg₁ d₁ b₁ i₁ s₁ mo₁ pr₁ jpg₂ d₂ b₂ i₂ s₂ mo₂ pr₂ n h1 h2 hn
    simp only [make_candidate, h1, h2, Option.getD_none, Option.getD_some]
    omega

/-- Witness for C6's theorem at concrete labels. -/
theorem make_candidate_sentinels_witness :
    (sampleCand "geneval" "alpha" "1" 0).iter_num = -1 ∧
    (sampleCand "geneval" "alpha" "1" 0).iter_num <
      (sampleCand "geneval" "3" "1" 0).iter_num :=
  ⟨make_candidate_sentinels.1 _ _ _ _ _ _ _ (by decide),
    make_candidate_sentinels.2.2.1 _ _ _ _ _ _ _ _ _ _ _ _ _ _ 3
      (by decide) (by decide) (by decide)⟩

/-! ## C2: the merged global ordering -/

/-- C2: `sortCandidates` permutes the merged candidate list into an order
that is descending on the composite key `(iter_num, sub_num, mtime,
benchmark)` (lexicographically, as Python compares tuples under
`reverse=True`); it is stable — candidates with identical composite keys
stay in discovery order — and this pair of properties determines the output
uniquely, so the ordering is total and identical across repeated runs over
an unchanged candidate list. -/
theorem sortCandidates_spec (cands : List Cand) :
    (sortCandidates cands).Perm cands ∧
    (sortCandidates cands).Pairwise (fun x y => candKey y ≤ candKey x) ∧
    (∀ k, (sortCandidates cands).filter (fun c => candKey c = k) =
        cands.filter (fun c => candKey c = k)) ∧
    (∀ l, l.Pairwise (fun x y => candKey y ≤ candKey x) →
        (∀ k, l.filter (fun c => candKey c = k) =
            cands.filter (fun c => candKey c = k)) →
        l = sortCandidates cands) := by
  refine ⟨sortB_perm _ cands, sortB_desc_sorted candKey cands, fun k => ?_, ?_⟩
  · exact (filter_decide_congr _).trans
      ((sortB_desc_filter candKey k cands).trans (filter_decide_congr _))
  · intro l hp hf
    refine stable_desc_sort_unique candKey l (sortCandidates cands) hp
      (sortB_desc_sorted candKey cands) (fun k => ?_)
    have h1 : (sortCandidates cands).filter (fun c => candKey c = k) =
        cands.filter (fun c => candKey c = k) :=
      (filter_decide_congr _).trans
        ((sortB_desc_filter candKey k cands).trans (filter_decide_congr _))
    exact (filter_decide_congr _).trans
      (((hf k).trans h1.symm).trans (filter_decide_congr _))

/-- Witness for C2's theorem: the uniqueness clause applied at a concrete
two-candidate list, with its hypotheses discharged concretely. -/
theorem sortCandidates_spec_witness :
    [sampleCand "geneval" "3" "1" 0, sampleCand "dpg" "2" "1" 0] =
      sortCandidates [sampleCand "dpg" "2" "1" 0, sampleCand "geneval" "3" "1" 0] := by
  refine (sortCandidates_spec _).2.2.2 _ (by decide) ?_
  intro k
  by_cases ha : candKey (sampleCand "dpg" "2" "1" 0) = k
  · have hb : candKey (sampleCand "geneval" "3" "1" 0) ≠ k := by
      rw [← ha]; decide
    simp [List.filter_cons, ha, hb]
  · by_cases hb : candKey (sampleCand "geneval" "3" "1" 0) = k
    · simp [List.filter_cons, ha, hb]
    · simp [List.filter_cons, ha, hb]

/-! ## C7: numeric-first directory ordering -/

theorem sortDir_perm (rev : Bool) (key : α → Int) (l : List α) :
    (sortDir rev key l).Perm l := by
  cases rev <;> simp only [sortDir, if_true, if_false, Bool.false_eq_true] <;>
    exact sortB_perm _ l

theorem sortDir_pairwise (rev : Bool) (key : α → Int) (l : List α) :
    (sortDir rev key l).Pairwise
      (fun x y => if rev = true then key y ≤ key x else key x ≤ key y) := by
  cases rev with
  | true =>
    simp only [sortDir, if_true]
    refine (sortB_desc_sorted key l).imp ?_
    intro a b h
    simpa using h
  | false =>
    simp only [sortDir, Bool.false_eq_true, if_false]
    refine (sortB_desc_sorted (fun d => OrderDual.toDual (key d)) l).imp ?_
    intro a b h
    simpa using h

/-- C7: `iter_dirs_numeric_sorted` returns the numeric-named subdirectories,
ordered by integer value in the requested direction, followed by the
non-numeric-named subdirectories, ordered by modification time in the
requested direction; every numeric-named directory appears before every
non-numeric-named one regardless of modification times. -/
theorem iter_dirs_numeric_sorted_spec (name : α → String) (mtime : α → Int)
    (rev : Bool) (dirs : List α) :
    ∃ N M,
      iter_dirs_numeric_sorted name mtime rev dirs = N ++ M ∧
      N.Perm (dirs.filter (fun d => (parse_int (name d)).isSome)) ∧
      M.Perm (dirs.filter (fun d => !(parse_int (name d)).isSome)) ∧
      (∀ d ∈ N, (parse_int (name d)).isSome = true) ∧
      (∀ d ∈ M, (parse_int (name d)).isSome = false) ∧
      N.Pairwise (fun x y =>
        if rev = true then (parse_int (name y)).getD 0 ≤ (parse_int (name x)).getD 0
        else (parse_int (name x)).getD 0 ≤ (parse_int (name y)).getD 0) ∧
      M.Pairwise (fun x y =>
        if rev = true then mtime y ≤ mtime x else mtime x ≤ mtime y) := by
  refine ⟨sortDir rev (fun d => (parse_int (name d)).getD 0)
      (dirs.filter (fun d => (parse_int (name d)).isSome)),
    sortDir rev mtime (dirs.filter (fun d => !(parse_int (name d)).isSome)),
    rfl, sortDir_perm _ _ _, sortDir_perm _ _ _, ?_, ?_,
    sortDir_pairwise _ _ _, sortDir_pairwise _ _ _⟩
  · intro d hd
    have := (sortDir_perm rev (fun d => (parse_int (name d)).getD 0) _).mem_iff.mp hd
    exact (List.mem_filter.mp this).2
  · intro d hd
    have := (sortDir_perm rev mtime _).mem_iff.mp hd
    simpa using (List.mem_filter.mp this).2

/-! ## C5: the dry-run flag -/

/-- C5, counterexample: with the dry-run flag set and zero candidates, the
zero-candidate early exit runs *before* the dry-run check and writes an
empty manifest, so a dry run does not always exit "without writing a
manifest". -/
theorem dry_run_zero_candidates_writes_manifest :
    (packMain 5 10 true [(["index.html"], ⟨0, 1⟩)] []).manifest =
      some (mkManifest []) ∧
    (packMain 5 10 true [(["index.html"], ⟨0, 1⟩)] []).site =
      [(["index.html"], ⟨0, 1⟩), (["manifest.json"], manifestMeta)] := by
  exact ⟨rfl, rfl⟩

/-- C5 (amended): for every invocation with the dry-run flag set and a
non-empty candidate list, the tool performs discovery, ranking and limit
computation (its selection is the budget-limited prefix of the globally
sorted candidates), prints a preview of the top ten selections, and exits
without copying any file, without touching the site, and without writing a
manifest. -/
theorem dry_run_computes_without_effects (mi fb : Int) (site : Site)
    (cands : List Cand) (hne : cands ≠ []) :
    (packMain mi fb true site cands).site = site ∧
    (packMain mi fb true site cands).manifest = none ∧
    (packMain mi fb true site cands).copies = 0 ∧
    (packMain mi fb true site cands).selected =
      pyTake (effective_limit mi fb (count_files site)) (sortCandidates cands) ∧
    (packMain mi fb true site cands).preview =
      (packMain mi fb true site cands).selected.take 10 := by
  have hemp : cands.isEmpty = false := by
    cases cands with
    | nil => exact absurd rfl hne
    | cons a l => rfl
  simp [packMain, hemp]

/-- Witness for C5's theorem at a concrete dry run. -/
theorem dry_run_computes_without_effects_witness :
    (packMain 5 10 true [(["index.html"], ⟨0, 1⟩)]
        [sampleCand "geneval" "3" "1" 0]).manifest = none ∧
    (packMain 5 10 true [(["index.html"], ⟨0, 1⟩)]
        [sampleCand "geneval" "3" "1" 0]).copies = 0 :=
  ⟨(dry_run_computes_without_effects 5 10 _ _ (by decide)).2.1,
    (dry_run_computes_without_effects 5 10 _ _ (by decide)).2.2.1⟩

/-! ## C1: selection length and prefix shape -/

/-- C1, counterexample: `max_items` is an arbitrary integer CLI argument;
with `max_items = -1`, `file_budget = 10`, one existing file and two
candidates, the Python slice `candidates[:-1]` selects one candidate, while
the claimed formula `min(max_items, max(0, file_budget - existing_files),
total_candidates)` evaluates to `-1`, which is not the selection count. -/
theorem selected_length_mismatch_on_negative_max_items :
    ((packMain (-1) 10 false [(["index.html"], ⟨0, 1⟩)]
        [sampleCand "geneval" "3" "1" 0, sampleCand "dpg" "2" "1" 0]).selected.length : Int) = 1 ∧
    min (-1 : Int) (min (max 0 (10 - (1 : Int))) (2 : Int)) = -1 := by
  exact ⟨by rfl, by decide⟩

/-- C1 (amended): for every run with a non-empty merged candidate list and a
nonnegative `max_items`, the selected candidates are exactly the prefix of
the globally sorted candidate list of length `effective_limit`, and the
number selected equals `min(max_items, max(0, file_budget - existing_files),
total_candidates)`, where `existing_files` is the recursive file count of
the site root taken before copying. -/
theorem selected_is_sorted_take_min (mi fb : Int) (dry : Bool) (site : Site)
    (cands : List Cand) (hmi : 0 ≤ mi) (hne : cands ≠ []) :
    (packMain mi fb dry site cands).selected =
      (sortCandidates cands).take (effective_limit mi fb (count_files site)).toNat ∧
    (((packMain mi fb dry site cands).selected.length : Int) =
      min mi (min (max 0 (fb - (count_files site : Int))) (cands.length : Int))) := by
  have hemp : cands.isEmpty = false := by
    cases cands with
    | nil => exact absurd rfl hne
    | cons a l => rfl
  have hlim : 0 ≤ effective_limit mi fb (count_files site) := by
    unfold effective_limit
    exact le_min hmi (le_max_left 0 _)
  have hsel : (packMain mi fb dry site cands).selected =
      (sortCandidates cands).take (effective_limit mi fb (count_files site)).toNat := by
    cases dry <;> simp [packMain, hemp, pyTake, not_lt.mpr hlim]
  refine ⟨hsel, ?_⟩
  rw [hsel, List.length_take]
  have hlen : (sortCandidates cands).length = cands.length :=
    (sortB_perm _ cands).length_eq
  rw [hlen]
  have hcast : ((effective_limit mi fb (count_files site)).toNat : Int) =
      effective_limit mi fb (count_files site) := Int.toNat_of_nonneg hlim
  unfold effective_limit at *
  omega

/-- Witness for C1's theorem at a concrete run. -/
theorem selected_is_sorted_take_min_witness :
    ((packMain 5 10 false [(["index.html"], ⟨0, 1⟩)]
        [sampleCand "geneval" "3" "1" 0]).selected.length : Int) =
      min (5 : Int) (min (max 0 (10 - (1 : Int))) (1 : Int)) :=
  (selected_is_sorted_take_min 5 10 false _ _ (by decide) (by decide)).2

/-! ## C10: only `*.jpg` files are artifact candidates -/

/-- A name ending in `.png` does not end in `.jpg` (equal-length suffixes of
one list coincide). -/
theorem png_suffix_not_jpg (l : List Char)
    (h : List.isSuffixOf ".png".data l = true) :
    List.isSuffixOf ".jpg".data l = false := by
  cases hj : List.isSuffixOf ".jpg".data l with
  | false => rfl
  | true =>
    exfalso
    obtain ⟨t1, ht1⟩ := List.isSuffixOf_iff_suffix.mp h
    obtain ⟨t2, ht2⟩ := List.isSuffixOf_iff_suffix.mp hj
    have heq : t2 ++ ".jpg".data = t1 ++ ".png".data := ht2.trans ht1.symm
    have := (List.append_inj' heq (by rfl)).2
    simp at this

/-- If a name ends in `.png` it is not a `glob("*.jpg")` match. -/
theorem png_not_matchesJpg (n : String)
    (h : List.isSuffixOf ".png".data n.data = true) :
    matchesJpg n = false := by
  unfold matchesJpg
  exact png_suffix_not_jpg n.data h

theorem first_jpg_mem (files : List FsFile) (f : FsFile)
    (h : first_jpg files = some f) :
    f ∈ files ∧ matchesJpg f.name = true := by
  unfold first_jpg at h
  have hmem : f ∈ sortB (fun a b => charListLe a.name.data b.name.data)
      (files.filter (fun g => matchesJpg g.name)) :=
    List.mem_of_mem_head? (by rw [h]; simp)
  have hmem' := (sortB_perm _ _).mem_iff.mp hmem
  have hm := List.mem_filter.mp hmem'
  exact ⟨hm.1, by simpa using hm.2⟩

theorem first_jpg_none_of_no_match (files : List FsFile)
    (h : ∀ f ∈ files, matchesJpg f.name = false) :
    first_jpg files = none := by
  unfold first_jpg
  have : files.filter (fun g => matchesJpg g.name) = [] := by
    rw [List.filter_eq_nil_iff]
    intro f hf
    simp [h f hf]
  rw [this]
  rfl

/-- Sorting a singleton directory listing returns it unchanged. -/
theorem iter_dirs_numeric_sorted_singleton (name : α → String)
    (mtime : α → Int) (rev : Bool) (d : α) :
    iter_dirs_numeric_sorted name mtime rev [d] = [d] := by
  unfold iter_dirs_numeric_sorted
  cases hp : (parse_int (name d)).isSome with
  | true =>
    have h1 : List.filter (fun x => (parse_int (name x)).isSome) [d] = [d] := by
      simp [hp]
    have h2 : List.filter (fun x => !(parse_int (name x)).isSome) [d] = [] := by
      simp [hp, Option.isNone_iff_eq_none, ← Option.not_isSome_iff_eq_none]
    rw [h1, h2]
    cases rev <;> simp [sortDir, sortB, insertB]
  | false =>
    have h1 : List.filter (fun x => (parse_int (name x)).isSome) [d] = [] := by
      simp [hp]
    have h2 : List.filter (fun x => !(parse_int (name x)).isSome) [d] = [d] := by
      simp [hp, Option.isNone_iff_eq_none, ← Option.not_isSome_iff_eq_none]
    rw [h1, h2]
    cases rev <;> simp [sortDir, sortB, insertB]

/-- `applyLatest` keeps a singleton iteration list intact. -/
theorem applyLatest_singleton (latest : Option Int) (d : α) :
    applyLatest latest [d] = [d] := by
  unfold applyLatest
  cases latest with
  | none => rfl
  | some n =>
    by_cases hn : 0 < n
    · have h1 : (1 : Nat) ≤ n.toNat := by omega
      simp [hn, pyTake, not_lt.mpr (le_of_lt hn), List.take_eq_self_iff]
      omega
    · simp [hn]

/-- C10: only files matching `*.jpg` are considered artifact image files:
whatever `first_jpg` returns is a member of the listing that matches
`*.jpg`, and a leaf directory whose files all end in `.png` yields no
candidate for either benchmark. -/
theorem only_jpg_files_considered :
    (∀ (files : List FsFile) (f : FsFile), first_jpg files = some f →
        f ∈ files ∧ matchesJpg f.name = true) ∧
    (∀ (files : List FsFile),
        (∀ f ∈ files, List.isSuffixOf ".png".data f.name.data = true) →
        first_jpg files = none ∧
        (∀ (iname cname model : String) (imt cmt : Int) (latest : Option Int)
            (jsons : List (String × JVal)),
          crawl_geneval_candidates
            [⟨iname, imt, some [⟨cname, cmt, some ⟨files, jsons⟩⟩]⟩]
            ["images"] model latest = [] ∧
          crawl_dpg_candidates
            [⟨iname, imt, some [⟨cname, cmt, files, jsons⟩]⟩]
            ["images"] model latest = [])) := by
  constructor
  · exact first_jpg_mem
  · intro files hpng
    have hnone : first_jpg files = none :=
      first_jpg_none_of_no_match files
        (fun f hf => png_not_matchesJpg f.name (hpng f hf))
    refine ⟨hnone, ?_⟩
    intro iname cname model imt cmt latest jsons
    constructor
    · unfold crawl_geneval_candidates
      rw [iter_dirs_numeric_sorted_singleton, applyLatest_singleton]
      simp [geneval_iter_cands, geneval_leaf_cands,
        iter_dirs_numeric_sorted_singleton, child_dirs_numeric_sorted, hnone]
    · unfold crawl_dpg_candidates
      rw [iter_dirs_numeric_sorted_singleton, applyLatest_singleton]
      simp [dpg_iter_cands, dpg_leaf_cands,
        iter_dirs_numeric_sorted_singleton, child_dirs_numeric_sorted, hnone]

/-- Witness for C10's theorem at a concrete `.png`-only leaf. -/
theorem only_jpg_files_considered_witness :
    first_jpg [⟨"x.png", 0, 1⟩] = none ∧
    crawl_geneval_candidates
      [⟨"3", 0, some [⟨"1", 0, some ⟨[⟨"x.png", 0, 1⟩], []⟩⟩]⟩]
      ["images"] "m" none = [] :=
  ⟨(only_jpg_files_considered.2 [⟨"x.png", 0, 1⟩] (by decide)).1,
    ((only_jpg_files_considered.2 [⟨"x.png", 0, 1⟩] (by decide)).2
      "3" "1" "m" 0 0 none []).1⟩

/-! ## C8: one candidate per (benchmark, iteration, sub-unit) triple -/

/-- Membership predicate of a (benchmark, iteration, sub-unit) triple. -/
def tripleP (b i s : String) (c : Cand) : Bool :=
  decide (c.benchmark = b ∧ c.iter_dir = i ∧ c.sub_dir = s)

theorem geneval_leaf_cands_mem (io : List String) (m : String) (it : IterDirG)
    (cd : SubDirG) (c : Cand) (h : c ∈ geneval_leaf_cands io m it cd) :
    c.benchmark = "geneval" ∧ c.iter_dir = it.name ∧ c.sub_dir = cd.name := by
  unfold geneval_leaf_cands at h
  split at h
  · simp at h
  · split at h
    · simp at h
    · rcases List.mem_cons.mp h with rfl | h'
      · exact ⟨rfl, rfl, rfl⟩
      · simp at h'

theorem geneval_leaf_cands_length (io : List String) (m : String)
    (it : IterDirG) (cd : SubDirG) :
    (geneval_leaf_cands io m it cd).length ≤ 1 := by
  unfold geneval_leaf_cands
  split
  · simp
  · split <;> simp

theorem dpg_leaf_cands_mem (io : List String) (m : String) (it : IterDirD)
    (nd : SubDirD) (c : Cand) (h : c ∈ dpg_leaf_cands io m it nd) :
    c.benchmark = "dpg" ∧ c.iter_dir = it.name ∧ c.sub_dir = nd.name := by
  unfold dpg_leaf_cands at h
  split at h
  · simp at h
  · rcases List.mem_cons.mp h with rfl | h'
    · exact ⟨rfl, rfl, rfl⟩
    · simp at h'

theorem dpg_leaf_cands_length (io : List String) (m : String) (it : IterDirD)
    (nd : SubDirD) : (dpg_leaf_cands io m it nd).length ≤ 1 := by
  unfold dpg_leaf_cands
  split <;> simp

/-- A `flatMap` whose per-element lists contribute at most one match each,
all tagged by their element's key, has at most one match overall when the
keys are distinct. -/
theorem countP_flatMap_le_one {β : Type} (L : List β) (f : β → List Cand)
    (p : Cand → Bool) (key : β → String) (target : String)
    (hk : ∀ x ∈ L, ∀ c ∈ f x, p c = true → key x = target)
    (hlen : ∀ x ∈ L, (f x).countP p ≤ 1)
    (hnodup : (L.map key).Nodup) :
    (L.flatMap f).countP p ≤ 1 := by
  induction L with
  | nil => simp
  | cons x xs ih =>
    rw [List.flatMap_cons, List.countP_append]
    by_cases hzero : (f x).countP p = 0
    · rw [hzero]
      simpa using ih (fun y hy c hc hpc => hk y (List.mem_cons_of_mem x hy) c hc hpc)
        (fun y hy => hlen y (List.mem_cons_of_mem x hy))
        ((List.nodup_cons.mp (by simpa using hnodup)).2)
    · have hx1 : (f x).countP p ≤ 1 := hlen x (by simp)
      have hpos : 0 < (f x).countP p := Nat.pos_of_ne_zero hzero
      obtain ⟨c0, hc0, hpc0⟩ := List.countP_pos_iff.mp hpos
      have hxt : key x = target := hk x (by simp) c0 hc0 hpc0
      have hnot : key x ∉ xs.map key :=
        (List.nodup_cons.mp (by simpa using hnodup)).1
      have hrest : (xs.flatMap f).countP p = 0 := by
        rw [List.countP_eq_zero]
        intro c hc hpc
        obtain ⟨y, hy, hcy⟩ := List.mem_flatMap.mp hc
        have hyt : key y = target := hk y (List.mem_cons_of_mem x hy) c hcy hpc
        exact hnot (by
          rw [hxt, ← hyt]
          exact List.mem_map_of_mem key hy)
      omega

/-- `iter_dirs_numeric_sorted` permutes the directory listing. -/
theorem iter_dirs_numeric_sorted_perm (name : α → String) (mtime : α → Int)
    (rev : Bool) (dirs : List α) :
    (iter_dirs_numeric_sorted name mtime rev dirs).Perm dirs := by
  unfold iter_dirs_numeric_sorted
  exact ((sortDir_perm _ _ _).append (sortDir_perm _ _ _)).trans
    (List.filter_append_perm _ dirs)

theorem pyTake_sublist (k : Int) (l : List α) : (pyTake k l).Sublist l := by
  unfold pyTake
  split <;> exact List.take_sublist _ _

theorem applyLatest_sublist (latest : Option Int) (l : List α) :
    (applyLatest latest l).Sublist l := by
  unfold applyLatest
  cases latest with
  | none => exact List.Sublist.refl l
  | some n =>
    by_cases hn : 0 < n
    · simp only [hn, if_true]
      exact pyTake_sublist n l
    · simp only [hn, Bool.false_eq_true, if_false]
      exact List.Sublist.refl l

theorem geneval_iter_cands_countP (io : List String) (m : String)
    (it : IterDirG) (i s : String)
    (hsub : ∀ subs, it.generation = some subs → (subs.map SubDirG.name).Nodup) :
    (geneval_iter_cands io m it).countP
      (fun c => decide (c.iter_dir = i ∧ c.sub_dir = s)) ≤ 1 := by
  unfold geneval_iter_cands child_dirs_numeric_sorted
  rcases hgen : it.generation with _ | subs
  · simp
  · refine countP_flatMap_le_one _ _ _ SubDirG.name s ?_ ?_ ?_
    · intro cd hcd c hc hpc
      have := (geneval_leaf_cands_mem io m it cd c hc).2.2
      simp only [decide_eq_true_eq] at hpc
      rw [← this, hpc.2]
    · intro cd hcd
      exact le_trans (List.countP_le_length _) (geneval_leaf_cands_length io m it cd)
    · have hperm := (iter_dirs_numeric_sorted_perm SubDirG.name SubDirG.mtime
        true subs).map SubDirG.name
      exact hperm.symm.nodup (hsub subs hgen)

theorem dpg_iter_cands_countP (io : List String) (m : String)
    (it : IterDirD) (i s : String)
    (hsub : ∀ subs, it.generation = some subs → (subs.map SubDirD.name).Nodup) :
    (dpg_iter_cands io m it).countP
      (fun c => decide (c.iter_dir = i ∧ c.sub_dir = s)) ≤ 1 := by
  unfold dpg_iter_cands child_dirs_numeric_sorted
  rcases hgen : it.generation with _ | subs
  · simp
  · refine countP_flatMap_le_one _ _ _ SubDirD.name s ?_ ?_ ?_
    · intro nd hnd c hc hpc
      have := (dpg_leaf_cands_mem io m it nd c hc).2.2
      simp only [decide_eq_true_eq] at hpc
      rw [← this, hpc.2]
    · intro nd hnd
      exact le_trans (List.countP_le_length _) (dpg_leaf_cands_length io m it nd)
    · have hperm := (iter_dirs_numeric_sorted_perm SubDirD.name SubDirD.mtime
        true subs).map SubDirD.name
      exact hperm.symm.nodup (hsub subs hgen)

theorem geneval_iter_cands_mem (io : List String) (m : String) (it : IterDirG)
    (c : Cand) (h : c ∈ geneval_iter_cands io m it) :
    c.benchmark = "geneval" ∧ c.iter_dir = it.name := by
  unfold geneval_iter_cands at h
  split at h
  · simp at h
  · obtain ⟨cd, _, hc⟩ := List.mem_flatMap.mp h
    have := geneval_leaf_cands_mem io m it cd c hc
    exact ⟨this.1, this.2.1⟩

theorem dpg_iter_cands_mem (io : List String) (m : String) (it : IterDirD)
    (c : Cand) (h : c ∈ dpg_iter_cands io m it) :
    c.benchmark = "dpg" ∧ c.iter_dir = it.name := by
  unfold dpg_iter_cands at h
  split at h
  · simp at h
  · obtain ⟨nd, _, hc⟩ := List.mem_flatMap.mp h
    have := dpg_leaf_cands_mem io m it nd c hc
    exact ⟨this.1, this.2.1⟩

theorem crawl_geneval_benchmark (root : List IterDirG) (io : List String)
    (m : String) (latest : Option Int) (c : Cand)
    (h : c ∈ crawl_geneval_candidates root io m latest) :
    c.benchmark = "geneval" := by
  unfold crawl_geneval_candidates at h
  obtain ⟨it, _, hc⟩ := List.mem_flatMap.mp h
  exact (geneval_iter_cands_mem io m it c hc).1

theorem crawl_dpg_benchmark (root : List IterDirD) (io : List String)
    (m : String) (latest : Option Int) (c : Cand)
    (h : c ∈ crawl_dpg_candidates root io m latest) :
    c.benchmark = "dpg" := by
  unfold crawl_dpg_candidates at h
  obtain ⟨it, _, hc⟩ := List.mem_flatMap.mp h
  exact (dpg_iter_cands_mem io m it c hc).1

/-- The iteration directories actually crawled all come from the root
listing. -/
theorem crawl_iters_mem (name : α → String) (mtime : α → Int)
    (latest : Option Int) (root : List α) (it : α)
    (h : it ∈ applyLatest latest (iter_dirs_numeric_sorted name mtime true root)) :
    it ∈ root :=
  (iter_dirs_numeric_sorted_perm name mtime true root).mem_iff.mp
    ((applyLatest_sublist latest _).mem h)

theorem crawl_geneval_countP (root : List IterDirG) (io : List String)
    (m : String) (latest : Option Int) (i s : String)
    (h1 : (root.map IterDirG.name).Nodup)
    (h2 : ∀ it ∈ root, ∀ subs, it.generation = some subs →
      (subs.map SubDirG.name).Nodup) :
    (crawl_geneval_candidates root io m latest).countP
      (fun c => decide (c.iter_dir = i ∧ c.sub_dir = s)) ≤ 1 := by
  unfold crawl_geneval_candidates
  refine countP_flatMap_le_one _ _ _ IterDirG.name i ?_ ?_ ?_
  · intro it hit c hc hpc
    have := (geneval_iter_cands_mem io m it c hc).2
    simp only [decide_eq_true_eq] at hpc
    rw [← this, hpc.1]
  · intro it hit
    exact geneval_iter_cands_countP io m it i s
      (h2 it (crawl_iters_mem _ _ latest root it hit))
  · have hsub := (applyLatest_sublist latest
      (iter_dirs_numeric_sorted IterDirG.name IterDirG.mtime true root)).map
      IterDirG.name
    have hperm := (iter_dirs_numeric_sorted_perm IterDirG.name IterDirG.mtime
      true root).map IterDirG.name
    exact hsub.nodup (hperm.symm.nodup h1)

theorem crawl_dpg_countP (root : List IterDirD) (io : List String)
    (m : String) (latest : Option Int) (i s : String)
    (h1 : (root.map IterDirD.name).Nodup)
    (h2 : ∀ it ∈ root, ∀ subs, it.generation = some subs →
      (subs.map SubDirD.name).Nodup) :
    (crawl_dpg_candidates root io m latest).countP
      (fun c => decide (c.iter_dir = i ∧ c.sub_dir = s)) ≤ 1 := by
  unfold crawl_dpg_candidates
  refine countP_flatMap_le_one _ _ _ IterDirD.name i ?_ ?_ ?_
  · intro it hit c hc hpc
    have := (dpg_iter_cands_mem io m it c hc).2
    simp only [decide_eq_true_eq] at hpc
    rw [← this, hpc.1]
  · intro it hit
    exact dpg_iter_cands_countP io m it i s
      (h2 it (crawl_iters_mem _ _ latest root it hit))
  · have hsub := (applyLatest_sublist latest
      (iter_dirs_numeric_sorted IterDirD.name IterDirD.mtime true root)).map
      IterDirD.name
    have hperm := (iter_dirs_numeric_sorted_perm IterDirD.name IterDirD.mtime
      true root).map IterDirD.name
    exact hsub.nodup (hperm.symm.nodup h1)

/-- Crawling a one-iteration, one-sub-unit geneval tree reduces to the leaf
contribution. -/
theorem crawl_geneval_single_leaf (iname cname mq : String) (imt cmt : Int)
    (files : List FsFile) (jsons : List (String × JVal)) (latest : Option Int) :
    crawl_geneval_candidates
      [⟨iname, imt, some [⟨cname, cmt, some ⟨files, jsons⟩⟩]⟩]
      ["images"] mq latest =
    geneval_leaf_cands ["images"] mq
      ⟨iname, imt, some [⟨cname, cmt, some ⟨files, jsons⟩⟩]⟩
      ⟨cname, cmt, some ⟨files, jsons⟩⟩ := by
  unfold crawl_geneval_candidates
  rw [iter_dirs_numeric_sorted_singleton, applyLatest_singleton,
    List.flatMap_singleton]
  show (child_dirs_numeric_sorted SubDirG.name SubDirG.mtime true
      [⟨cname, cmt, some ⟨files, jsons⟩⟩]).flatMap
      (geneval_leaf_cands ["images"] mq
        ⟨iname, imt, some [⟨cname, cmt, some ⟨files, jsons⟩⟩]⟩) = _
  unfold child_dirs_numeric_sorted
  rw [iter_dirs_numeric_sorted_singleton, List.flatMap_singleton]

/-- C8: across the merged candidate set, at most one candidate exists per
(benchmark, iteration, sub-unit) triple (the first matching artifact in
deterministic file-name order within the leaf); a leaf holding exactly
`a.jpg` and `b.jpg` with no metadata JSON produces exactly one candidate,
for the lexicographically first name `a.jpg`, with empty prompt; and a leaf
with no image yields no candidate. -/
theorem one_candidate_per_triple :
    (∀ (gr : List IterDirG) (dr : List IterDirD) (io : List String)
        (mg md : String) (latest : Option Int) (b i s : String),
      (gr.map IterDirG.name).Nodup →
      (∀ it ∈ gr, ∀ subs, it.generation = some subs →
        (subs.map SubDirG.name).Nodup) →
      (dr.map IterDirD.name).Nodup →
      (∀ it ∈ dr, ∀ subs, it.generation = some subs →
        (subs.map SubDirD.name).Nodup) →
      (crawl_geneval_candidates gr io mg latest ++
        crawl_dpg_candidates dr io md latest).countP (tripleP b i s) ≤ 1) ∧
    (∀ (iname cname mq : String) (imt cmt mta mtb : Int) (sza szb : Nat)
        (latest : Option Int),
      crawl_geneval_candidates
        [⟨iname, imt, some [⟨cname, cmt,
            some ⟨[⟨"a.jpg", mta, sza⟩, ⟨"b.jpg", mtb, szb⟩], []⟩⟩]⟩]
        ["images"] mq latest =
      [make_candidate ⟨"a.jpg", mta, sza⟩ ["images", "geneval", iname, cname]
        "geneval" iname cname mq ""]) ∧
    (∀ (iname cname mq : String) (imt cmt : Int) (latest : Option Int)
        (jsons : List (String × JVal)),
      crawl_geneval_candidates
        [⟨iname, imt, some [⟨cname, cmt, some ⟨[], jsons⟩⟩]⟩]
        ["images"] mq latest = []) := by
  refine ⟨?_, ?_, ?_⟩
  · intro gr dr io mg md latest b i s h1 h2 h3 h4
    rw [List.countP_append]
    by_cases hbg : b = "geneval"
    · subst hbg
      have hg : (crawl_geneval_candidates gr io mg latest).countP
          (tripleP "geneval" i s) =
          (crawl_geneval_candidates gr io mg latest).countP
            (fun c => decide (c.iter_dir = i ∧ c.sub_dir = s)) := by
        refine List.countP_congr ?_
        intro c hc
        have hb := crawl_geneval_benchmark gr io mg latest c hc
        simp [tripleP, hb]
      have hd : (crawl_dpg_candidates dr io md latest).countP
          (tripleP "geneval" i s) = 0 := by
        rw [List.countP_eq_zero]
        intro c hc hpc
        have hb := crawl_dpg_benchmark dr io md latest c hc
        simp only [tripleP, decide_eq_true_eq] at hpc
        rw [hb] at hpc
        exact absurd hpc.1 (by decide)
      rw [hg, hd]
      have := crawl_geneval_countP gr io mg latest i s h1 h2
      omega
    · by_cases hbd : b = "dpg"
      · subst hbd
        have hg : (crawl_geneval_candidates gr io mg latest).countP
            (tripleP "dpg" i s) = 0 := by
          rw [List.countP_eq_zero]
          intro c hc hpc
          have hb := crawl_geneval_benchmark gr io mg latest c hc
          simp only [tripleP, decide_eq_true_eq] at hpc
          rw [hb] at hpc
          exact absurd hpc.1 (by decide)
        have hd : (crawl_dpg_candidates dr io md latest).countP
            (tripleP "dpg" i s) =
            (crawl_dpg_candidates dr io md latest).countP
              (fun c => decide (c.iter_dir = i ∧ c.sub_dir = s)) := by
          refine List.countP_congr ?_
          intro c hc
          have hb := crawl_dpg_benchmark dr io md latest c hc
          simp [tripleP, hb]
        rw [hg, hd]
        have := crawl_dpg_countP dr io md latest i s h3 h4
        omega
      · have hg : (crawl_geneval_candidates gr io mg latest).countP
            (tripleP b i s) = 0 := by
          rw [List.countP_eq_zero]
          intro c hc hpc
          have hb := crawl_geneval_benchmark gr io mg latest c hc
          simp only [tripleP, decide_eq_true_eq] at hpc
          exact hbg ((hpc.1).symm.trans hb)
        have hd : (crawl_dpg_candidates dr io md latest).countP
            (tripleP b i s) = 0 := by
          rw [List.countP_eq_zero]
          intro c hc hpc
          have hb := crawl_dpg_benchmark dr io md latest c hc
          simp only [tripleP, decide_eq_true_eq] at hpc
          exact hbd ((hpc.1).symm.trans hb)
        rw [hg, hd]
        omega
  · intro iname cname mq imt cmt mta mtb sza szb latest
    rw [crawl_geneval_single_leaf]
    rfl
  · intro iname cname mq imt cmt latest jsons
    rw [crawl_geneval_single_leaf]
    rfl

/-- Witness for C8's theorem at a concrete tree. -/
theorem one_candidate_per_triple_witness :
    (crawl_geneval_candidates [⟨"3", 0, some [⟨"1", 0,
          some ⟨[⟨"a.jpg", 5, 7⟩, ⟨"b.jpg", 6, 8⟩], []⟩⟩]⟩] ["images"] "m" none ++
        crawl_dpg_candidates [] ["images"] "m" none).countP
      (tripleP "geneval" "3" "1") ≤ 1 ∧
    crawl_geneval_candidates [⟨"3", 0, some [⟨"1", 0,
        some ⟨[⟨"a.jpg", 5, 7⟩, ⟨"b.jpg", 6, 8⟩], []⟩⟩]⟩] ["images"] "m" none =
      [make_candidate ⟨"a.jpg", 5, 7⟩ ["images", "geneval", "3", "1"]
        "geneval" "3" "1" "m" ""] :=
  ⟨one_candidate_per_triple.1 _ [] _ "m" "m" none "geneval" "3" "1"
      (by decide) (by decide) (by decide) (by decide),
    one_candidate_per_triple.2.1 "3" "1" "m" 0 0 5 6 7 8 none⟩

/-! ## C3: the file budget bound -/

theorem setPath_length (s : Site) (p : List String) (m : FileMeta) :
    count_files (setPath s p m) = count_files s ∨
    count_files (setPath s p m) = count_files s + 1 := by
  unfold setPath count_files
  by_cases h : s.any (fun e => e.1 = p)
  · left
    simp [h]
  · right
    simp [h]

theorem copy_to_site_length (s : Site) (c : Cand) :
    count_files s ≤ count_files (copy_to_site s c).1 ∧
    count_files (copy_to_site s c).1 ≤ count_files s + 1 := by
  unfold copy_to_site
  split
  · rcases setPath_length s (dstPath c) ⟨c.src.mtime, c.src.size⟩ with h | h <;>
      simp [h]
  · split
    · rcases setPath_length s (dstPath c) ⟨c.src.mtime, c.src.size⟩ with h | h <;>
        simp [h]
    · simp

theorem copyPhase_length (sel : List Cand) (s : Site) :
    count_files s ≤ count_files (copyPhase s sel).1 ∧
    count_files (copyPhase s sel).1 ≤ count_files s + sel.length := by
  induction sel generalizing s with
  | nil => simp [copyPhase]
  | cons c cs ih =>
    have h1 := copy_to_site_length s c
    have h2 := ih (copy_to_site s c).1
    unfold copyPhase
    constructor
    · exact le_trans h1.1 h2.1
    · calc count_files (copyPhase (copy_to_site s c).1 cs).1
          ≤ count_files (copy_to_site s c).1 + cs.length := h2.2
        _ ≤ count_files s + 1 + cs.length := by omega
        _ = count_files s + (c :: cs).length := by simp; omega

/-- C3, counterexample: with `file_budget = 2`, a site holding only
`index.html`, and one fresh candidate, the run copies one file *and* writes
`manifest.json`, leaving three deployed files — one more than the budget.
The manifest file itself is not accounted by the budget check. -/
theorem deployed_count_exceeds_budget :
    count_files (packMain 10 2 false [(["index.html"], ⟨0, 1⟩)]
      [sampleCand "geneval" "3" "1" 0]).site = 3 := by
  rfl

/-- C3 (amended): for every run with nonnegative `max_items`, at most
`max(0, file_budget - existing_files)` candidates are selected (with
`file_budget = 100` and 95 existing files, at most 5 even when
`max_items = 1000`); the file count after the copy loop never exceeds
`max(existing_files, file_budget)`; and the count after manifest writing
never exceeds `max(existing_files, file_budget) + 1` — the manifest itself
may exceed the budget by one file, so the claimed bound holds only up to
that one file. -/
theorem budget_bound (mi fb : Int) (dry : Bool) (site : Site)
    (cands : List Cand) (hmi : 0 ≤ mi) :
    (packMain mi fb dry site cands).selected.length ≤
      (max 0 (fb - (count_files site : Int))).toNat ∧
    count_files (copyPhase site (packMain mi fb dry site cands).selected).1 ≤
      max (count_files site) fb.toNat ∧
    count_files (packMain mi fb dry site cands).site ≤
      max (count_files site) fb.toNat + 1 := by
  by_cases hemp : cands.isEmpty
  · have h0 : (packMain mi fb dry site cands).selected = [] := by
      simp [packMain, hemp]
    have h1 : (packMain mi fb dry site cands).site =
        setPath site manifestPath manifestMeta := by
      simp [packMain, hemp]
    refine ⟨by simp [h0], by simp [h0, copyPhase, le_max_left], ?_⟩
    rw [h1]
    rcases setPath_length site manifestPath manifestMeta with h | h <;>
      rw [h] <;> omega
  · have hlim : 0 ≤ effective_limit mi fb (count_files site) := by
      unfold effective_limit
      exact le_min hmi (le_max_left 0 _)
    have hsel : (packMain mi fb dry site cands).selected =
        (sortCandidates cands).take
          (effective_limit mi fb (count_files site)).toNat := by
      cases dry <;> simp [packMain, hemp, pyTake, not_lt.mpr hlim]
    have hlen : (packMain mi fb dry site cands).selected.length ≤
        (max 0 (fb - (count_files site : Int))).toNat := by
      rw [hsel, List.length_take]
      have : (effective_limit mi fb (count_files site)).toNat ≤
          (max 0 (fb - (count_files site : Int))).toNat := by
        unfold effective_limit
        omega
      omega
    have hcopy : count_files
        (copyPhase site (packMain mi fb dry site cands).selected).1 ≤
        max (count_files site) fb.toNat := by
      have h2 := (copyPhase_length
        ((packMain mi fb dry site cands).selected) site).2
      have h3 := hlen
      have : (max 0 (fb - (count_files site : Int))).toNat ≤
          max (count_files site) fb.toNat - count_files site := by
        omega
      omega
    refine ⟨hlen, hcopy, ?_⟩
    cases dry with
    | true =>
      have h4 : (packMain mi fb true site cands).site = site := by
        simp [packMain, hemp]
      rw [h4]
      omega
    | false =>
      have h4 : (packMain mi fb false site cands).site =
          setPath (copyPhase site
            (packMain mi fb false site cands).selected).1
            manifestPath manifestMeta := by
        simp [packMain, hemp]
      rw [h4]
      rcases setPath_length (copyPhase site
          (packMain mi fb false site cands).selected).1
          manifestPath manifestMeta with h | h <;> rw [h] <;> omega

/-- Witness for C3's theorem: the spec's own numbers — budget 100, 95
existing files, 1000 allowed items — admit at most five selections. -/
theorem budget_bound_witness :
    (packMain 1000 100 false
        ((List.range 95).map (fun i => ([toString i], ⟨0, 0⟩)))
        [sampleCand "geneval" "3" "1" 0]).selected.length ≤ 5 := by
  have h := (budget_bound 1000 100 false
    ((List.range 95).map (fun i => ([toString i], ⟨0, 0⟩)))
    [sampleCand "geneval" "3" "1" 0] (by decide)).1
  refine le_trans h ?_
  rfl

/-! ## C4: idempotence of re-runs -/

theorem lookupPath_map_set_self (p : List String) (m : FileMeta) :
    ∀ (s : Site), s.any (fun e => e.1 = p) = true →
      lookupPath (s.map (fun e => if e.1 = p then (p, m) else e)) p = some m
  | [], h => by simp at h
  | e :: es, h => by
    by_cases he : e.1 = p
    · unfold lookupPath
      rw [List.map_cons, if_pos he, List.find?_cons_of_pos _ (by simp)]
      rfl
    · have h' : es.any (fun e => e.1 = p) = true := by
        rcases List.any_eq_true.mp h with ⟨x, hx, hxp⟩
        rcases List.mem_cons.mp hx with rfl | hx
        · exact absurd (by simpa using hxp) he
        · exact List.any_eq_true.mpr ⟨x, hx, hxp⟩
      have ih := lookupPath_map_set_self p m es h'
      unfold lookupPath at ih ⊢
      rw [List.map_cons, if_neg he, List.find?_cons_of_neg _ (by simpa using he)]
      exact ih

theorem lookupPath_map_set_ne (p q : List String) (m : FileMeta)
    (hne : q ≠ p) :
    ∀ (s : Site),
      lookupPath (s.map (fun e => if e.1 = p then (p, m) else e)) q =
        lookupPath s q
  | [] => rfl
  | e :: es => by
    have ih := lookupPath_map_set_ne p q m hne es
    by_cases he : e.1 = p
    · unfold lookupPath at ih ⊢
      rw [List.map_cons, if_pos he,
        List.find?_cons_of_neg _ (by
          simp only [decide_eq_true_eq]
          exact fun h => hne h.symm),
        List.find?_cons_of_neg _ (by
          simp only [decide_eq_true_eq]
          exact fun h => hne (he.symm.trans h).symm)]
      exact ih
    · unfold lookupPath at ih ⊢
      rw [List.map_cons, if_neg he]
      by_cases heq : e.1 = q
      · rw [List.find?_cons_of_pos _ (by simpa using heq),
          List.find?_cons_of_pos _ (by simpa using heq)]
      · rw [List.find?_cons_of_neg _ (by simpa using heq),
          List.find?_cons_of_neg _ (by simpa using heq)]
        exact ih

theorem lookupPath_append_single_self (s : Site) (p : List String)
    (m : FileMeta) (h : s.any (fun e => e.1 = p) = false) :
    lookupPath (s ++ [(p, m)]) p = some m := by
  induction s with
  | nil => simp [lookupPath]
  | cons e es ih =>
    simp only [List.any_cons, Bool.or_eq_false_iff] at h
    unfold lookupPath at ih ⊢
    rw [List.cons_append, List.find?_cons_of_neg _ (by simpa using h.1)]
    exact ih h.2

theorem lookupPath_append_single_ne (s : Site) (p q : List String)
    (m : FileMeta) (hne : q ≠ p) :
    lookupPath (s ++ [(p, m)]) q = lookupPath s q := by
  induction s with
  | nil =>
    unfold lookupPath
    rw [List.nil_append,
      List.find?_cons_of_neg _ (by simpa using fun h => hne h.symm)]
  | cons e es ih =>
    unfold lookupPath at ih ⊢
    by_cases heq : e.1 = q
    · rw [List.cons_append, List.find?_cons_of_pos _ (by simpa using heq),
        List.find?_cons_of_pos _ (by simpa using heq)]
    · rw [List.cons_append, List.find?_cons_of_neg _ (by simpa using heq),
        List.find?_cons_of_neg _ (by simpa using heq)]
      exact ih

theorem lookupPath_setPath_self (s : Site) (p : List String) (m : FileMeta) :
    lookupPath (setPath s p m) p = some m := by
  unfold setPath
  by_cases h : s.any (fun e => e.1 = p)
  · rw [if_pos h]
    exact lookupPath_map_set_self p m s h
  · rw [if_neg h]
    exact lookupPath_append_single_self s p m (Bool.eq_false_iff.mpr h)

theorem lookupPath_setPath_ne (s : Site) (p q : List String) (m : FileMeta)
    (hne : q ≠ p) :
    lookupPath (setPath s p m) q = lookupPath s q := by
  unfold setPath
  by_cases h : s.any (fun e => e.1 = p)
  · rw [if_pos h]
    exact lookupPath_map_set_ne p q m hne s
  · rw [if_neg h]
    exact lookupPath_append_single_ne s p q m hne

/-- A candidate whose destination already holds an up-to-date copy: the
destination exists, is not older than the source, and has its size.  This is
exactly the condition under which `copy_to_site` performs no copy. -/
def satisfied (c : Cand) (site : Site) : Prop :=
  ∃ m, lookupPath site (dstPath c) = some m ∧
    ¬ m.mtime < c.src.mtime ∧ c.src.size = m.size

theorem copy_to_site_of_satisfied (c : Cand) (site : Site)
    (h : satisfied c site) : copy_to_site site c = (site, false) := by
  obtain ⟨m, hm, h1, h2⟩ := h
  simp only [copy_to_site, hm]
  rw [if_neg (by simp [h1, h2])]

theorem satisfied_after_copy (c : Cand) (site : Site) :
    satisfied c (copy_to_site site c).1 := by
  rcases hl : lookupPath site (dstPath c) with _ | m
  · simp only [copy_to_site, hl]
    exact ⟨⟨c.src.mtime, c.src.size⟩, lookupPath_setPath_self _ _ _,
      lt_irrefl _, rfl⟩
  · simp only [copy_to_site, hl]
    by_cases hcond : m.mtime < c.src.mtime ∨ c.src.size ≠ m.size
    · rw [if_pos hcond]
      exact ⟨⟨c.src.mtime, c.src.size⟩, lookupPath_setPath_self _ _ _,
        lt_irrefl _, rfl⟩
    · rw [if_neg hcond]
      push_neg at hcond
      exact ⟨m, hl, not_lt.mpr hcond.1, hcond.2⟩

theorem satisfied_preserve_copy (c c' : Cand) (site : Site)
    (h : satisfied c site)
    (hcmp : dstPath c' = dstPath c →
      c'.src.mtime = c.src.mtime ∧ c'.src.size = c.src.size) :
    satisfied c (copy_to_site site c').1 := by
  by_cases hd : dstPath c' = dstPath c
  · obtain ⟨hm, hs⟩ := hcmp hd
    rcases hl : lookupPath site (dstPath c') with _ | m
    · simp only [copy_to_site, hl]
      refine ⟨⟨c'.src.mtime, c'.src.size⟩, ?_, ?_, ?_⟩
      · rw [← hd]
        exact lookupPath_setPath_self _ _ _
      · rw [hm]
        exact lt_irrefl _
      · exact hs.symm
    · simp only [copy_to_site, hl]
      by_cases hcond : m.mtime < c'.src.mtime ∨ c'.src.size ≠ m.size
      · rw [if_pos hcond]
        refine ⟨⟨c'.src.mtime, c'.src.size⟩, ?_, ?_, ?_⟩
        · rw [← hd]
          exact lookupPath_setPath_self _ _ _
        · rw [hm]
          exact lt_irrefl _
        · exact hs.symm
      · rw [if_neg hcond]
        exact h
  · obtain ⟨m, hmla, h1, h2⟩ := h
    have hne : dstPath c ≠ dstPath c' := fun hh => hd hh.symm
    rcases hl : lookupPath site (dstPath c') with _ | m'
    · simp only [copy_to_site, hl]
      exact ⟨m, by rw [lookupPath_setPath_ne site _ _ _ hne]; exact hmla,
        h1, h2⟩
    · simp only [copy_to_site, hl]
      by_cases hcond : m'.mtime < c'.src.mtime ∨ c'.src.size ≠ m'.size
      · rw [if_pos hcond]
        exact ⟨m, by rw [lookupPath_setPath_ne site _ _ _ hne]; exact hmla,
          h1, h2⟩
      · rw [if_neg hcond]
        exact ⟨m, hmla, h1, h2⟩

theorem satisfied_preserve_set (c : Cand) (site : Site) (p : List String)
    (m : FileMeta) (h : satisfied c site) (hne : dstPath c ≠ p) :
    satisfied c (setPath site p m) := by
  obtain ⟨m', hm', h1, h2⟩ := h
  exact ⟨m', by rw [lookupPath_setPath_ne site p _ m hne]; exact hm', h1, h2⟩

theorem satisfied_preserve_phase (l : List Cand) (c : Cand) :
    ∀ site, satisfied c site →
      (∀ c' ∈ l, dstPath c' = dstPath c →
        c'.src.mtime = c.src.mtime ∧ c'.src.size = c.src.size) →
      satisfied c (copyPhase site l).1 := by
  induction l with
  | nil =>
    intro site h _
    exact h
  | cons a cs ih =>
    intro site h hcmp
    show satisfied c (copyPhase (copy_to_site site a).1 cs).1
    exact ih _ (satisfied_preserve_copy c a site h (hcmp a (by simp)))
      (fun c' hc' => hcmp c' (by simp [hc']))

theorem phase_all_satisfied (l : List Cand) :
    ∀ site, (∀ c ∈ l, ∀ c' ∈ l, dstPath c' = dstPath c →
        c'.src.mtime = c.src.mtime ∧ c'.src.size = c.src.size) →
      ∀ c ∈ l, satisfied c (copyPhase site l).1 := by
  induction l with
  | nil =>
    intro site _ c hc
    simp at hc
  | cons a cs ih =>
    intro site hcmp c hc
    show satisfied c (copyPhase (copy_to_site site a).1 cs).1
    rcases List.mem_cons.mp hc with rfl | hc
    · exact satisfied_preserve_phase cs c _ (satisfied_after_copy c site)
        (fun c' hc' => hcmp c (by simp) c' (by simp [hc']))
    · exact ih _ (fun x hx y hy => hcmp x (by simp [hx]) y (by simp [hy])) c hc

theorem copyPhase_no_copy (l : List Cand) :
    ∀ site, (∀ c ∈ l, satisfied c site) → copyPhase site l = (site, 0) := by
  induction l with
  | nil =>
    intro site _
    rfl
  | cons a cs ih =>
    intro site h
    have ha := copy_to_site_of_satisfied a site (h a (by simp))
    unfold copyPhase
    rw [ha]
    simp only
    rw [ih site (fun c hc => h c (by simp [hc]))]
    simp

/-- The observable pieces of a non-dry run with candidates, in terms of the
selection prefix. -/
theorem packMain_run_eqs (mi fb : Int) (site : Site) (cands : List Cand)
    (hmi : 0 ≤ mi) (hne : cands ≠ []) :
    (packMain mi fb false site cands).selected =
      (sortCandidates cands).take
        (effective_limit mi fb (count_files site)).toNat ∧
    (packMain mi fb false site cands).site =
      setPath (copyPhase site ((sortCandidates cands).take
        (effective_limit mi fb (count_files site)).toNat)).1
        manifestPath manifestMeta ∧
    (packMain mi fb false site cands).manifest =
      some (mkManifest (((sortCandidates cands).take
        (effective_limit mi fb (count_files site)).toNat).map mkItem)) ∧
    (packMain mi fb false site cands).copies =
      (copyPhase site ((sortCandidates cands).take
        (effective_limit mi fb (count_files site)).toNat)).2 := by
  have hemp : cands.isEmpty = false := by
    cases cands with
    | nil => exact absurd rfl hne
    | cons a l => rfl
  have hlim : 0 ≤ effective_limit mi fb (count_files site) :=
    le_min hmi (le_max_left 0 _)
  refine ⟨?_, ?_, ?_, ?_⟩ <;>
    simp [packMain, hemp, pyTake, not_lt.mpr hlim]

/-- C4, counterexample: with `file_budget = 2` the first run fills the site
(`index.html`, one image, `manifest.json`), so the second run's pre-copy
snapshot leaves zero headroom and it selects nothing: its manifest is empty
and differs from the first run's manifest well beyond the creation
timestamp, refuting unconditional idempotence. -/
theorem second_run_changes_manifest :
    (packMain 10 2 false
        (packMain 10 2 false [(["index.html"], ⟨0, 1⟩)]
          [sampleCand "geneval" "3" "1" 5]).site
        [sampleCand "geneval" "3" "1" 5]).manifest =
      some (mkManifest []) ∧
    (packMain 10 2 false [(["index.html"], ⟨0, 1⟩)]
        [sampleCand "geneval" "3" "1" 5]).manifest =
      some (mkManifest
        [mkItem (sampleCand "geneval" "3" "1" 5)]) ∧
    mkManifest ([] : List Item) ≠
      mkManifest [mkItem (sampleCand "geneval" "3" "1" 5)] := by
  refine ⟨by rfl, by rfl, by decide⟩

/-- C4 (amended): re-running the packing process with unchanged sources and
arguments yields an identical manifest (modulo the creation timestamp, which
the model omits) and performs zero file copies on the second run, *provided*
the file budget is still slack after the first run — the first run's
selection count does not exceed `file_budget` minus the post-run file count.
(The pre-copy snapshot counts the first run's own copies and manifest
against the budget, so without slack the second run selects a shorter
prefix.)  Candidates are assumed to have distinct destinations carrying
consistent stat data and to never target `manifest.json`, as the crawlers
guarantee. -/
theorem second_run_idempotent (mi fb : Int) (site : Site)
    (cands : List Cand) (hmi : 0 ≤ mi) (hne : cands ≠ [])
    (hcompat : ∀ c ∈ cands, ∀ c' ∈ cands, dstPath c' = dstPath c →
      c'.src.mtime = c.src.mtime ∧ c'.src.size = c.src.size)
    (hman : ∀ c ∈ cands, dstPath c ≠ manifestPath)
    (hslack : ((packMain mi fb false site cands).selected.length : Int) ≤
      fb - (count_files (packMain mi fb false site cands).site : Int)) :
    (packMain mi fb false (packMain mi fb false site cands).site
        cands).manifest = (packMain mi fb false site cands).manifest ∧
    (packMain mi fb false (packMain mi fb false site cands).site
        cands).copies = 0 := by
  obtain ⟨heq1sel, heq1site, heq1man, _⟩ :=
    packMain_run_eqs mi fb site cands hmi hne
  obtain ⟨heq2sel, _, heq2man, heq2cop⟩ :=
    packMain_run_eqs mi fb (packMain mi fb false site cands).site cands hmi hne
  have hmem : ∀ c ∈ (sortCandidates cands).take
      (effective_limit mi fb (count_files site)).toNat, c ∈ cands :=
    fun c hc => (sortB_perm _ cands).mem_iff.mp
      ((List.take_sublist _ _).mem hc)
  -- the second snapshot is at least as large as the first
  have hmono : count_files site ≤
      count_files (packMain mi fb false site cands).site := by
    rw [heq1site]
    have h1 := (copyPhase_length ((sortCandidates cands).take
      (effective_limit mi fb (count_files site)).toNat) site).1
    rcases setPath_length (copyPhase site ((sortCandidates cands).take
        (effective_limit mi fb (count_files site)).toNat)).1
        manifestPath manifestMeta with h | h <;> omega
  -- under the slack hypothesis the second selection is the same prefix
  have htake : (sortCandidates cands).take
      (effective_limit mi fb
        (count_files (packMain mi fb false site cands).site)).toNat =
      (sortCandidates cands).take
        (effective_limit mi fb (count_files site)).toNat := by
    rw [heq1sel] at hslack
    rw [List.length_take] at hslack
    refine List.take_eq_take.mpr ?_
    unfold effective_limit at *
    omega
  -- every selected candidate is satisfied at the first run's final site
  have hsat : ∀ c ∈ (sortCandidates cands).take
      (effective_limit mi fb (count_files site)).toNat,
      satisfied c (packMain mi fb false site cands).site := by
    intro c hc
    rw [heq1site]
    refine satisfied_preserve_set c _ manifestPath manifestMeta ?_
      (hman c (hmem c hc))
    exact phase_all_satisfied _ site
      (fun x hx y hy => hcompat x (hmem x hx) y (hmem y hy)) c hc
  have hzero : copyPhase (packMain mi fb false site cands).site
      ((sortCandidates cands).take
        (effective_limit mi fb (count_files site)).toNat) =
      ((packMain mi fb false site cands).site, 0) :=
    copyPhase_no_copy _ _ hsat
  constructor
  · rw [heq2man, htake, heq1man]
  · rw [heq2cop, htake, hzero]

/-- Witness for C4's theorem: a slack-budget concrete re-run. -/
theorem second_run_idempotent_witness :
    (packMain 5 10 false
        (packMain 5 10 false [(["index.html"], ⟨0, 1⟩)]
          [sampleCand "geneval" "3" "1" 5]).site
        [sampleCand "geneval" "3" "1" 5]).manifest =
      (packMain 5 10 false [(["index.html"], ⟨0, 1⟩)]
        [sampleCand "geneval" "3" "1" 5]).manifest ∧
    (packMain 5 10 false
        (packMain 5 10 false [(["index.html"], ⟨0, 1⟩)]
          [sampleCand "geneval" "3" "1" 5]).site
        [sampleCand "geneval" "3" "1" 5]).copies = 0 :=
  second_run_idempotent 5 10 [(["index.html"], ⟨0, 1⟩)]
    [sampleCand "geneval" "3" "1" 5] (by decide) (by decide)
    (by decide) (by decide) (by decide)

end Pack

